import Mathlib

/-!
Verification of the lyrics normalization and conversion pipeline of
`audio_metadata.py` (class `AudioMetadataManager`): `split_lyrics_formats`,
`_normalize_lrc`, `_lrc_to_plain` and `lrc_to_srt`.

Strings are modelled as `List Char`.  Python's `str.splitlines`,
`str.strip`, `str.isdigit` and the two concrete regular expressions
  P1 = `\[\s*\d{1,2}:\d{2}(?:[\.:]\d{1,2})?\s*\]`   (detection / normalization)
  P2 = `\[(\d{1,2}):(\d{2})(?:[\.:](\d{1,2}))?\]`   (entry extraction)
are compiled by hand into explicit matchers with the regex engine's
leftmost-match and greedy-with-backtracking semantics.  `\d` is modelled as
the ASCII digits and `\s` / `str.isspace` as the standard whitespace
characters (ASCII whitespace, the file-separator block, NEL, NBSP and the
two Unicode line/paragraph separators).  Python's stable `list.sort(key=...)`
is modelled as a stable insertion sort, and the one place where a negative
integer can appear (`entries[idx][0] - 500`) is computed in `Int`.
-/

namespace ZvukLyrics

/-- Convert a Lean string literal to the `List Char` representation. -/
def toL (s : String) : List Char := s.data

/-- Whitespace for `str.strip` / `str.isspace` / regex `\s` (modelled subset). -/
def pyIsSpace (c : Char) : Bool :=
  c = ' ' || c = '\t' || c = '\n' || c = '\r' ||
  c = Char.ofNat 11 || c = Char.ofNat 12 ||
  c = Char.ofNat 28 || c = Char.ofNat 29 || c = Char.ofNat 30 || c = Char.ofNat 31 ||
  c = Char.ofNat 133 || c = Char.ofNat 160 ||
  c = Char.ofNat 0x2028 || c = Char.ofNat 0x2029

/-- Line boundaries of `str.splitlines` (modelled subset; `\r\n` is handled
as a single boundary in `pySplitlinesGo`). -/
def isLineBreak (c : Char) : Bool :=
  c = '\n' || c = '\r' ||
  c = Char.ofNat 11 || c = Char.ofNat 12 ||
  c = Char.ofNat 28 || c = Char.ofNat 29 || c = Char.ofNat 30 ||
  c = Char.ofNat 133 || c = Char.ofNat 0x2028 || c = Char.ofNat 0x2029

/-- Worker for `str.splitlines`: `acc` holds the current line reversed;
`\r\n` counts as a single boundary. -/
def pySplitlinesGo : List Char → List Char → List (List Char)
  | acc, [] => if acc.isEmpty then [] else [acc.reverse]
  | acc, c :: rest =>
    if c = '\r' then
      match rest with
      | r1 :: rest2 =>
        if r1 = '\n' then acc.reverse :: pySplitlinesGo [] rest2
        else acc.reverse :: pySplitlinesGo [] (r1 :: rest2)
      | [] => acc.reverse :: pySplitlinesGo [] []
    else if isLineBreak c then acc.reverse :: pySplitlinesGo [] rest
    else pySplitlinesGo (c :: acc) rest

/-- Python `str.splitlines()`: split at line boundaries, no trailing empty line. -/
def pySplitlines (s : List Char) : List (List Char) :=
  pySplitlinesGo [] s

/-- Python `str.strip()`: remove leading and trailing whitespace. -/
def pyStrip (s : List Char) : List Char :=
  ((s.dropWhile pyIsSpace).reverse.dropWhile pyIsSpace).reverse

/-- Numeric value of a decimal digit string, as computed by Python `int()`. -/
def digitsVal (ds : List Char) : Nat :=
  ds.foldl (fun a c => a * 10 + (c.toNat - 48)) 0

/-- Python `str.isdigit()` (ASCII digits): nonempty and all digits. -/
def isDigitStr (s : List Char) : Bool :=
  !s.isEmpty && s.all Char.isDigit

/-- Decimal digit characters of `n`, most significant first. -/
def natDigits (n : Nat) : List Char :=
  if _h : n < 10 then [Nat.digitChar n]
  else natDigits (n / 10) ++ [Nat.digitChar (n % 10)]
  decreasing_by exact Nat.div_lt_self (by omega) (by omega)

/-- Python format `{n:0wd}`: decimal digits of `n` left-padded with zeros to
width `w`. -/
def padNat (w n : Nat) : List Char :=
  List.replicate (w - (natDigits n).length) '0' ++ natDigits n

/-- The separator class `[\.:]` / `[:\.]`. -/
def isSep (c : Char) : Bool := c = '.' || c = ':'

/-! ### The normalization pattern P1 = `\[\s*\d{1,2}:\d{2}(?:[\.:]\d{1,2})?\s*\]`

Each `p1…` function consumes one segment of the pattern and returns the
remainder of the input after the match, or `none`. -/

/-- P1 tail `\s*\]`. -/
def p1Close (s : List Char) : Option (List Char) :=
  match s.dropWhile pyIsSpace with
  | c :: rest => if c = ']' then some rest else none
  | [] => none

/-- P1 fractional alternative `[\.:]\d\d` followed by `\s*\]`. -/
def p1FracTwo : List Char → Option (List Char)
  | sep :: e1 :: e2 :: rest =>
    if isSep sep && e1.isDigit && e2.isDigit then p1Close rest else none
  | _ => none

/-- P1 fractional alternative `[\.:]\d` followed by `\s*\]`. -/
def p1FracOne : List Char → Option (List Char)
  | sep :: e1 :: rest =>
    if isSep sep && e1.isDigit then p1Close rest else none
  | _ => none

/-- P1 optional fractional group `(?:[\.:]\d{1,2})?\s*\]`, greedy: two
digits, then one digit, then absent. -/
def p1Frac (s : List Char) : Option (List Char) :=
  match p1FracTwo s with
  | some r => some r
  | none =>
    match p1FracOne s with
    | some r => some r
    | none => p1Close s

/-- P1 after the minutes: `:\d{2}` then the fractional tail. -/
def p1AfterMM : List Char → Option (List Char)
  | col :: e1 :: e2 :: rest =>
    if col = ':' && e1.isDigit && e2.isDigit then p1Frac rest else none
  | _ => none

/-- P1 after `[`: `\s*\d{1,2}` (greedy: two digits preferred) then the rest. -/
def p1AfterLB (s : List Char) : Option (List Char) :=
  match s.dropWhile pyIsSpace with
  | d1 :: rest =>
    if d1.isDigit then
      match rest with
      | d2 :: rest2 =>
        if d2.isDigit then
          match p1AfterMM rest2 with
          | some r => some r
          | none => p1AfterMM rest
        else p1AfterMM rest
      | [] => p1AfterMM rest
    else none
  | [] => none

/-- Attempt to match P1 at the start of `s`; returns the remainder after the
match. -/
def matchP1At : List Char → Option (List Char)
  | c :: rest => if c = '[' then p1AfterLB rest else none
  | [] => none

/-- Leftmost P1 match: returns `(prefix, matched text, remainder)`, scanning
positions left to right as `re.search` / `re.sub` do. -/
def findP1 : List Char → Option (List Char × List Char × List Char)
  | [] => none
  | c :: rest =>
    match matchP1At (c :: rest) with
    | some after =>
      some ([], (c :: rest).take ((c :: rest).length - after.length), after)
    | none =>
      match findP1 rest with
      | some (pre, m, post) => some (c :: pre, m, post)
      | none => none

/-- The replacement function `repl` of `_normalize_lrc`: strip brackets and
whitespace from the matched text, split on `[:\.]`, read minutes, seconds
and the clamped fractional part, and render `[{mm:02d}:{ss:02d}.{ff:02d}]`. -/
def splitSepGo : List Char → List Char → List (List Char)
  | acc, [] => [acc.reverse]
  | acc, c :: rest =>
    if isSep c then acc.reverse :: splitSepGo [] rest
    else splitSepGo (c :: acc) rest

/-- Python `re.split(r"[:\.]", ts)`. -/
def splitSep (s : List Char) : List (List Char) :=
  splitSepGo [] s

/-- Canonical rendering `[{mm:02d}:{ss:02d}.{ff:02d}]`. -/
def canonTs (mm ss ff : Nat) : List Char :=
  '[' :: padNat 2 mm ++ ':' :: padNat 2 ss ++ '.' :: padNat 2 ff ++ [']']

/-- The body of `repl` in `_normalize_lrc`, applied to the matched text. -/
def tsRepl (m : List Char) : List Char :=
  let ts := pyStrip (m.filter (fun c => !(c = '[' || c = ']')))
  let parts := splitSep ts
  let mm := match parts with
    | p0 :: _ => if isDigitStr p0 then digitsVal p0 else 0
    | [] => 0
  let ss := match parts with
    | _ :: p1 :: _ => if isDigitStr p1 then digitsVal p1 else 0
    | _ => 0
  let ff := match parts with
    | _ :: _ :: p2 :: _ => if isDigitStr p2 then max 0 (min (digitsVal p2) 99) else 0
    | _ => 0
  canonTs mm ss ff

/-- One line of `_normalize_lrc`: if the line contains a P1 match, rewrite
only the first match via `repl` (`re.sub(..., count=1)`); otherwise keep the
line unchanged. -/
def normLine (line : List Char) : List Char :=
  match findP1 line with
  | some (pre, m, post) => pre ++ tsRepl m ++ post
  | none => line

/-- A line is blank when its stripped content is empty. -/
def isBlank (l : List Char) : Bool :=
  (pyStrip l).isEmpty

/-- Remove leading and trailing blank lines (the two `while ... pop` loops). -/
def trimBlank (ls : List (List Char)) : List (List Char) :=
  ((ls.dropWhile isBlank).reverse.dropWhile isBlank).reverse

/-- `"\n".join(lines)`. -/
def joinNL (ls : List (List Char)) : List Char :=
  List.intercalate ['\n'] ls

/-- `_normalize_lrc`: canonicalize the first timestamp of every line, then
trim leading/trailing blank lines and re-join with `\n`. -/
def normalize_lrc (s : List Char) : List Char :=
  joinNL (trimBlank ((pySplitlines s).map normLine))

/-- One line of `_lrc_to_plain`: `re.sub(r"^\s*\[[^\]]+\]\s*", "", line)`.
The anchored pattern strips optional leading whitespace, one bracket group
running to the first `]` (with nonempty interior), and optional trailing
whitespace; a line with no such prefix is kept unchanged. -/
def stripLeadTs (line : List Char) : List Char :=
  match line.dropWhile pyIsSpace with
  | lb :: r2 =>
    if lb = '[' then
      if (r2.takeWhile (fun c => c ≠ ']')).isEmpty then line
      else
        match r2.dropWhile (fun c => c ≠ ']') with
        | rb :: r4 => if rb = ']' then r4.dropWhile pyIsSpace else line
        | [] => line
    else line
  | [] => line

/-- `_lrc_to_plain`: strip the leading timestamp group of every line. -/
def lrc_to_plain (s : List Char) : List Char :=
  joinNL ((pySplitlines s).map stripLeadTs)

/-- The LRC detection test of `split_lyrics_formats`:
`re.search(P1, lyrics_raw)` succeeds. -/
def hasLrc (s : List Char) : Bool :=
  (findP1 s).isSome

/-- `split_lyrics_formats`: `None`/empty input gives `(None, None)`; an input
with a P1 timestamp is normalized and split into `(plain, lrc)`; otherwise
the input itself is the plain form. -/
def split_lyrics_formats (raw : Option (List Char)) :
    Option (List Char) × Option (List Char) :=
  match raw with
  | none => (none, none)
  | some s =>
    if s.isEmpty then (none, none)
    else if hasLrc s then
      let lrcText := normalize_lrc s
      (some (lrc_to_plain lrcText), some lrcText)
    else (some s, none)

/-! ### The extraction pattern P2 = `\[(\d{1,2}):(\d{2})(?:[\.:](\d{1,2}))?\]`

Matchers return the captured `(mm, ss, ff)` values (`ff = 0` when the
optional group is absent, as `int(m.group(3) or 0)` does) and the remainder
after the match. -/

/-- P2 fractional alternative `[\.:]\d\d\]`. -/
def tsFracTwo (mm ss : Nat) : List Char → Option ((Nat × Nat × Nat) × List Char)
  | sep :: e1 :: e2 :: rb :: rest =>
    if isSep sep && e1.isDigit && e2.isDigit && rb = ']' then
      some ((mm, ss, digitsVal [e1, e2]), rest)
    else none
  | _ => none

/-- P2 fractional alternative `[\.:]\d\]`. -/
def tsFracOne (mm ss : Nat) : List Char → Option ((Nat × Nat × Nat) × List Char)
  | sep :: e1 :: rb :: rest =>
    if isSep sep && e1.isDigit && rb = ']' then
      some ((mm, ss, digitsVal [e1]), rest)
    else none
  | _ => none

/-- P2 with the optional group absent: `\]` immediately. -/
def tsFracNone (mm ss : Nat) : List Char → Option ((Nat × Nat × Nat) × List Char)
  | rb :: rest => if rb = ']' then some ((mm, ss, 0), rest) else none
  | [] => none

/-- P2 optional fractional group, greedy: two digits, one digit, absent. -/
def tsFrac (mm ss : Nat) (s : List Char) : Option ((Nat × Nat × Nat) × List Char) :=
  match tsFracTwo mm ss s with
  | some r => some r
  | none =>
    match tsFracOne mm ss s with
    | some r => some r
    | none => tsFracNone mm ss s

/-- P2 after the minutes: `:\d{2}` then the fractional tail. -/
def tsAfterMM (mm : Nat) : List Char → Option ((Nat × Nat × Nat) × List Char)
  | col :: e1 :: e2 :: rest =>
    if col = ':' && e1.isDigit && e2.isDigit then
      tsFrac mm (digitsVal [e1, e2]) rest
    else none
  | _ => none

/-- Attempt to match P2 at the start of `s`: `\[` then `\d{1,2}` (greedy). -/
def matchTsAt : List Char → Option ((Nat × Nat × Nat) × List Char)
  | lb :: d1 :: rest =>
    if lb = '[' && d1.isDigit then
      match rest with
      | d2 :: rest2 =>
        if d2.isDigit then
          match tsAfterMM (digitsVal [d1, d2]) rest2 with
          | some r => some r
          | none => tsAfterMM (digitsVal [d1]) rest
        else tsAfterMM (digitsVal [d1]) rest
      | [] => tsAfterMM (digitsVal [d1]) rest
    else none
  | _ => none

/-- `time_pattern.finditer(line)`: all non-overlapping P2 matches, scanning
left to right.  The fuel starts at the input length; every step consumes at
least one character, so it never runs out. -/
def findAllTsGo : Nat → List Char → List (Nat × Nat × Nat)
  | 0, _ => []
  | _ + 1, [] => []
  | fuel + 1, c :: rest =>
    match matchTsAt (c :: rest) with
    | some (t, after) => t :: findAllTsGo fuel after
    | none => findAllTsGo fuel rest

/-- All P2 matches of a line, in order. -/
def findAllTs (s : List Char) : List (Nat × Nat × Nat) :=
  findAllTsGo s.length s

/-- `time_pattern.sub("", line)`: delete every P2 match. -/
def subTsGo : Nat → List Char → List Char
  | 0, s => s
  | _ + 1, [] => []
  | fuel + 1, c :: rest =>
    match matchTsAt (c :: rest) with
    | some (_, after) => subTsGo fuel after
    | none => c :: subTsGo fuel rest

/-- A line with all P2 matches removed. -/
def subTs (s : List Char) : List Char :=
  subTsGo s.length s

/-- The millisecond rule of `lrc_to_srt` / `embed_metadata_mp3`:
`ms = ff * 10 if ff < 10 else ff if ff < 100 else 0`. -/
def msOf (ff : Nat) : Nat :=
  if ff < 10 then ff * 10 else if ff < 100 then ff else 0

/-- `total_ms = (mm * 60 + ss) * 1000 + ms`. -/
def totalMs (t : Nat × Nat × Nat) : Nat :=
  (t.1 * 60 + t.2.1) * 1000 + msOf t.2.2

/-- The placeholder `"♪"` used for lines whose stripped text is empty. -/
def noteText : List Char := ['♪']

/-- `time_pattern.sub("", raw_line).strip()`, with the `"♪"` fallback. -/
def lineText (line : List Char) : List Char :=
  let t := pyStrip (subTs line)
  if t.isEmpty then noteText else t

/-- Entries contributed by one raw line of `lrc_to_srt`: blank lines and
lines without a P2 match are skipped; otherwise every match yields one
entry, all sharing the line's stripped text. -/
def lineEntries (line : List Char) : List (Nat × List Char) :=
  if (pyStrip line).isEmpty then []
  else
    let times := findAllTs line
    if times.isEmpty then []
    else times.map (fun t => (totalMs t, lineText line))

/-- Stable insertion of an entry: it goes after every entry whose key is
strictly smaller, and after earlier entries with an equal key. -/
def insEntry (x : Nat × List Char) :
    List (Nat × List Char) → List (Nat × List Char)
  | [] => [x]
  | y :: ys => if y.1 < x.1 then y :: insEntry x ys else x :: y :: ys

/-- Python's stable `entries.sort(key=lambda x: x[0])`, as a stable
insertion sort (stable ascending sorts agree on their output). -/
def sortEntries (l : List (Nat × List Char)) : List (Nat × List Char) :=
  l.foldr insEntry []

/-- The entry list of `lrc_to_srt`: entries of every line, sorted stably by
start time. -/
def toEntries (s : List Char) : List (Nat × List Char) :=
  sortEntries (((pySplitlines s).map lineEntries).flatten)

/-- A SubRip block: 1-based index, start and end in milliseconds, text.
End times are `Int` because `entries[idx][0] - 500` may be negative. -/
structure SubtitleBlock where
  index : Nat
  startMs : Int
  endMs : Int
  text : List Char
deriving DecidableEq

/-- The block-synthesis loop of `lrc_to_srt`: while a next entry exists,
`end = max(start + 500, next_start - 500)`; the last block gets
`end = start + 4000`. -/
def subBlocksGo (idx : Nat) : List (Nat × List Char) → List SubtitleBlock
  | [] => []
  | [(start, text)] =>
    [⟨idx, (start : Int), (start : Int) + 4000, text⟩]
  | (start, text) :: next :: rest =>
    ⟨idx, (start : Int), max ((start : Int) + 500) ((next.1 : Int) - 500), text⟩ ::
      subBlocksGo (idx + 1) (next :: rest)

/-- Subtitle blocks synthesized from an entry list. -/
def toSubtitles (entries : List (Nat × List Char)) : List SubtitleBlock :=
  subBlocksGo 1 entries

/-- `fmt_srt_time`: clamp negative input to 0 and render `HH:MM:SS,mmm`. -/
def fmt_srt_time (msIn : Int) : List Char :=
  let ms := (if msIn < 0 then 0 else msIn).toNat
  let h := ms / 3600000
  let ms1 := ms % 3600000
  let m := ms1 / 60000
  let ms2 := ms1 % 60000
  let sec := ms2 / 1000
  let msr := ms2 % 1000
  padNat 2 h ++ ':' :: padNat 2 m ++ ':' :: padNat 2 sec ++ ',' :: padNat 3 msr

/-- The four output lines of one SubRip block. -/
def blockLines (b : SubtitleBlock) : List (List Char) :=
  [natDigits b.index,
   fmt_srt_time b.startMs ++ toL (" --> ") ++ fmt_srt_time b.endMs,
   b.text,
   []]

/-- `lrc_to_srt`: empty string when no entries were extracted, otherwise the
blocks rendered four lines each and joined with `\n`. -/
def lrc_to_srt (s : List Char) : List Char :=
  let entries := toEntries s
  if entries.isEmpty then []
  else joinNL (((toSubtitles entries).map blockLines).flatten)

/-- Modelled from the spec's millisecond rule, for comparison with the code:
`ms_part = fractional*10` if `fractional < 10`, `ms_part = fractional` if
`10 <= fractional < 100`, else `ms_part = 0`. -/
def specMsPart (ff : Nat) : Nat :=
  if ff < 10 then ff * 10 else if 10 ≤ ff ∧ ff < 100 then ff else 0

/-! ### Concrete-case claims -/

/-- C5: on `"[00:01.50]Hello\n[00:05.00]World"`, entry extraction yields
start times 1050 (`"Hello"`, the fractional 50 taken unscaled) and 5000
(`"World"`); subtitle synthesis yields block 1 with start 1050 and end
`max(1550, 5000 - 500) = 4500`, and block 2 with start 5000 and end 9000. -/
theorem concrete_two_line_case :
    toEntries (toL ("[00:01.50]Hello\n[00:05.00]World")) =
      [(1050, toL ("Hello")), (5000, toL ("World"))] ∧
    toSubtitles (toEntries (toL ("[00:01.50]Hello\n[00:05.00]World"))) =
      [⟨1, 1050, max (1050 + 500) (5000 - 500), toL ("Hello")⟩,
       ⟨2, 5000, 5000 + 4000, toL ("World")⟩] ∧
    max ((1050 : Int) + 500) (5000 - 500) = 4500 := by
  refine ⟨by decide, by decide, by decide⟩

/-- C8: `None` and `""` inputs classify as "no lyrics" (`(None, None)`),
entry extraction of `""` yields no entries, and the subtitle text of `""`
is empty.  All modelled operations are total functions by construction. -/
theorem empty_input_degenerate :
    split_lyrics_formats none = (none, none) ∧
    split_lyrics_formats (some (toL (""))) = (none, none) ∧
    toEntries (toL ("")) = [] ∧
    lrc_to_srt (toL ("")) = [] := by
  refine ⟨rfl, by decide, by decide, by decide⟩

/-- C2 counterexample: the line `"[0:5]No frac"` does not match the
timestamp pattern (the seconds field requires exactly two digits), so the
normalizer returns it unchanged rather than `"[00:05.00]No frac"`. -/
theorem normalize_single_digit_seconds_cex :
    normalize_lrc (toL ("[0:5]No frac")) = toL ("[0:5]No frac") ∧
    normalize_lrc (toL ("[0:5]No frac")) ≠ toL ("[00:05.00]No frac") := by
  refine ⟨by decide, by decide⟩

/-- C2 amended: `"[0:5]No frac"` contains no match of the timestamp
pattern, the normalizer returns it unchanged, and `split_lyrics_formats`
classifies it as plain text (`(input, None)`). -/
theorem normalize_single_digit_seconds_amended :
    findP1 (toL ("[0:5]No frac")) = none ∧
    normalize_lrc (toL ("[0:5]No frac")) = toL ("[0:5]No frac") ∧
    split_lyrics_formats (some (toL ("[0:5]No frac"))) =
      (some (toL ("[0:5]No frac")), none) := by
  refine ⟨by decide, by decide, by decide⟩

/-! ### Basic facts about whitespace, digits and stripping -/

theorem digit_bounds {c : Char} (h : c.isDigit = true) :
    48 ≤ c.toNat ∧ c.toNat ≤ 57 := by
  simp [Char.isDigit] at h
  exact h

theorem digit_ne_special {c : Char} (h : c.isDigit = true) :
    c ≠ ':' ∧ c ≠ '.' ∧ c ≠ ']' ∧ c ≠ '[' := by
  refine ⟨?_, ?_, ?_, ?_⟩ <;> (rintro rfl; exact absurd h (by decide))

theorem pyStrip_eq_nil_iff (l : List Char) :
    pyStrip l = [] ↔ ∀ c ∈ l, pyIsSpace c = true := by
  unfold pyStrip
  rw [List.reverse_eq_nil_iff, List.dropWhile_eq_nil_iff]
  constructor
  · intro h c hc
    have hsplit := List.takeWhile_append_dropWhile pyIsSpace l
    rw [← hsplit] at hc
    rcases List.mem_append.1 hc with h1 | h1
    · exact List.mem_takeWhile_imp h1
    · exact h c (List.mem_reverse.2 h1)
  · intro h c hc
    exact h c ((List.dropWhile_suffix pyIsSpace).subset (List.mem_reverse.1 hc))

theorem matchTsAt_not_lb {c : Char} (hc : c ≠ '[') (rest : List Char) :
    matchTsAt (c :: rest) = none := by
  cases rest <;> simp [matchTsAt, hc]

theorem findAllTsGo_no_lb (fuel : Nat) (l : List Char) (h : '[' ∉ l) :
    findAllTsGo fuel l = [] := by
  induction fuel generalizing l with
  | zero => rfl
  | succ fuel ih =>
    cases l with
    | nil => rfl
    | cons c rest =>
      have hc : c ≠ '[' := fun e => h (e ▸ List.mem_cons_self c rest)
      show (match matchTsAt (c :: rest) with
        | some (t, after) => t :: findAllTsGo fuel after
        | none => findAllTsGo fuel rest) = []
      rw [matchTsAt_not_lb hc]
      exact ih rest (fun hm => h (List.mem_cons_of_mem c hm))

theorem findAllTs_of_blank {l : List Char} (h : (pyStrip l).isEmpty = true) :
    findAllTs l = [] := by
  rw [List.isEmpty_iff] at h
  have hall := (pyStrip_eq_nil_iff l).1 h
  refine findAllTsGo_no_lb _ l (fun hm => ?_)
  have := hall '[' hm
  exact absurd this (by decide)

/-! ### The stable sort -/

theorem mem_insEntry {x y : Nat × List Char} {l : List (Nat × List Char)} :
    x ∈ insEntry y l ↔ x = y ∨ x ∈ l := by
  induction l with
  | nil => simp [insEntry]
  | cons z zs ih =>
    unfold insEntry
    by_cases h : z.1 < y.1
    · simp only [if_pos h, List.mem_cons, ih]
      tauto
    · simp only [if_neg h, List.mem_cons]

theorem mem_sortEntries {x : Nat × List Char} {l : List (Nat × List Char)} :
    x ∈ sortEntries l ↔ x ∈ l := by
  induction l with
  | nil => simp [sortEntries]
  | cons a l ih =>
    show x ∈ insEntry a (sortEntries l) ↔ _
    rw [mem_insEntry, ih, List.mem_cons]

theorem length_insEntry (x : Nat × List Char) (l : List (Nat × List Char)) :
    (insEntry x l).length = l.length + 1 := by
  induction l with
  | nil => rfl
  | cons z zs ih =>
    unfold insEntry
    by_cases h : z.1 < x.1 <;> simp [h, ih]

theorem length_sortEntries (l : List (Nat × List Char)) :
    (sortEntries l).length = l.length := by
  induction l with
  | nil => rfl
  | cons a l ih =>
    show (insEntry a (sortEntries l)).length = _
    rw [length_insEntry, ih, List.length_cons]

/-! ### C1: the millisecond rule of entry extraction -/

theorem msOf_eq_specMsPart (ff : Nat) : msOf ff = specMsPart ff := by
  unfold msOf specMsPart
  rcases Nat.lt_or_ge ff 10 with h | h
  · rw [if_pos h, if_pos h]
  · rcases Nat.lt_or_ge ff 100 with h2 | h2
    · rw [if_neg (Nat.not_lt.2 h), if_neg (Nat.not_lt.2 h), if_pos h2, if_pos ⟨h, h2⟩]
    · rw [if_neg (Nat.not_lt.2 h), if_neg (Nat.not_lt.2 h), if_neg (Nat.not_lt.2 h2),
        if_neg (fun hc => Nat.not_lt.2 h2 hc.2)]

/-- C1: every timestamp `(mm, ss, ff)` parsed by entry extraction emits an
entry whose start time is `(mm*60+ss)*1000 + ms_part` with
`ms_part = ff*10` for `ff < 10`, `ms_part = ff` for `10 ≤ ff < 100`, and
`ms_part = 0` otherwise (the rule stated by the spec). -/
theorem entry_start_rule (s line : List Char) (t : Nat × Nat × Nat)
    (hl : line ∈ pySplitlines s) (ht : t ∈ findAllTs line) :
    ((t.1 * 60 + t.2.1) * 1000 + specMsPart t.2.2, lineText line) ∈ toEntries s := by
  have hblank : (pyStrip line).isEmpty = false := by
    rcases h : (pyStrip line).isEmpty with _ | _
    · rfl
    · rw [findAllTs_of_blank h] at ht
      exact absurd ht (List.not_mem_nil t)
  have hne : (findAllTs line).isEmpty = false := by
    cases h : findAllTs line with
    | nil => rw [h] at ht; exact absurd ht (List.not_mem_nil t)
    | cons a l => rfl
  have hmem : (totalMs t, lineText line) ∈ lineEntries line := by
    unfold lineEntries
    rw [hblank]
    simp only [Bool.false_eq_true, if_false, hne]
    exact List.mem_map_of_mem _ ht
  have hstart : (t.1 * 60 + t.2.1) * 1000 + specMsPart t.2.2 = totalMs t := by
    unfold totalMs
    rw [msOf_eq_specMsPart]
  rw [hstart]
  unfold toEntries
  rw [mem_sortEntries, List.mem_flatten]
  exact ⟨lineEntries line, List.mem_map_of_mem _ hl, hmem⟩

/-- C1 witness: the concrete line `"[00:01.50]Hello"` emits the entry with
start `(0*60+1)*1000 + 50 = 1050`. -/
theorem entry_start_rule_witness :
    ((0 * 60 + 1) * 1000 + specMsPart 50, lineText (toL ("[00:01.50]Hello"))) ∈
      toEntries (toL ("[00:01.50]Hello")) :=
  entry_start_rule (toL ("[00:01.50]Hello")) (toL ("[00:01.50]Hello")) (0, 1, 50)
    (by decide) (by decide)

/-! ### C7: entry count equals total match count -/

/-- C7: for every input, the number of extracted entries equals the total
number of timestamp matches summed over the non-blank lines. -/
theorem entry_count_rule (s : List Char) :
    (toEntries s).length =
      ((pySplitlines s).map
        (fun l => if (pyStrip l).isEmpty then 0 else (findAllTs l).length)).sum := by
  unfold toEntries
  rw [length_sortEntries, List.length_flatten, List.map_map]
  congr 1
  refine List.map_congr_left (fun l _ => ?_)
  show (lineEntries l).length = _
  unfold lineEntries
  rcases hb : (pyStrip l).isEmpty with _ | _
  · simp only [Bool.false_eq_true, if_false]
    rcases he : (findAllTs l).isEmpty with _ | _
    · simp only [Bool.false_eq_true, if_false, List.length_map]
    · rw [List.isEmpty_iff] at he
      simp [he]
  · simp

/-! ### C3: subtitle end-time synthesis -/

theorem subBlocksGo_map_start (idx : Nat) (es : List (Nat × List Char)) :
    (subBlocksGo idx es).map SubtitleBlock.startMs = es.map (fun e => (e.1 : Int)) := by
  induction es generalizing idx with
  | nil => rfl
  | cons e rest ih =>
    cases rest with
    | nil => rfl
    | cons e2 rest2 =>
      show List.map SubtitleBlock.startMs
          ((⟨idx, (e.1 : Int), max ((e.1 : Int) + 500) ((e2.1 : Int) - 500), e.2⟩ :
              SubtitleBlock) :: subBlocksGo (idx + 1) (e2 :: rest2)) = _
      rw [List.map_cons, ih (idx + 1), List.map_cons]
      rfl

theorem subBlocksGo_length (idx : Nat) (es : List (Nat × List Char)) :
    (subBlocksGo idx es).length = es.length := by
  have h := congrArg List.length (subBlocksGo_map_start idx es)
  simpa using h

theorem subBlocksGo_adj (es : List (Nat × List Char)) :
    ∀ (idx : Nat) (pre post : List SubtitleBlock) (b bn : SubtitleBlock),
      subBlocksGo idx es = pre ++ b :: bn :: post →
      b.endMs = max (b.startMs + 500) (bn.startMs - 500) ∧
        b.startMs + 500 ≤ b.endMs := by
  induction es with
  | nil =>
    intro idx pre post b bn h
    have hlen := congrArg List.length h
    rw [subBlocksGo_length] at hlen
    simp only [List.length_append, List.length_cons, List.length_nil] at hlen
    omega
  | cons e rest ih =>
    intro idx pre post b bn h
    cases rest with
    | nil =>
      have hlen := congrArg List.length h
      rw [subBlocksGo_length] at hlen
      simp only [List.length_append, List.length_cons, List.length_nil] at hlen
      omega
    | cons e2 rest2 =>
      rw [show subBlocksGo idx (e :: e2 :: rest2) =
          ⟨idx, (e.1 : Int), max ((e.1 : Int) + 500) ((e2.1 : Int) - 500), e.2⟩ ::
            subBlocksGo (idx + 1) (e2 :: rest2) from rfl] at h
      cases pre with
      | nil =>
        rw [List.nil_append] at h
        obtain ⟨hb, htail⟩ := List.cons_eq_cons.1 h
        have hstart : bn.startMs = (e2.1 : Int) := by
          have hm := subBlocksGo_map_start (idx + 1) (e2 :: rest2)
          rw [htail] at hm
          simpa using congrArg List.head? hm
        subst hb
        constructor
        · rw [hstart]
        · exact le_max_left _ _
      | cons p pre2 =>
        rw [List.cons_append] at h
        obtain ⟨_, htail⟩ := List.cons_eq_cons.1 h
        exact ih (idx + 1) pre2 post b bn htail

theorem subBlocksGo_last (es : List (Nat × List Char)) :
    ∀ (idx : Nat) (pre : List SubtitleBlock) (b : SubtitleBlock),
      subBlocksGo idx es = pre ++ [b] → b.endMs = b.startMs + 4000 := by
  induction es with
  | nil =>
    intro idx pre b h
    have hlen := congrArg List.length h
    rw [subBlocksGo_length] at hlen
    simp only [List.length_append, List.length_cons, List.length_nil] at hlen
    omega
  | cons e rest ih =>
    intro idx pre b h
    cases rest with
    | nil =>
      have hlen := congrArg List.length h
      rw [subBlocksGo_length] at hlen
      simp only [List.length_append, List.length_cons, List.length_nil] at hlen
      have hpre : pre = [] := List.length_eq_zero.1 (by omega)
      subst hpre
      rw [List.nil_append] at h
      obtain ⟨hb, _⟩ := List.cons_eq_cons.1 (show subBlocksGo idx [e] = b :: [] from h)
      rw [← hb]
    | cons e2 rest2 =>
      rw [show subBlocksGo idx (e :: e2 :: rest2) =
          ⟨idx, (e.1 : Int), max ((e.1 : Int) + 500) ((e2.1 : Int) - 500), e.2⟩ ::
            subBlocksGo (idx + 1) (e2 :: rest2) from rfl] at h
      cases pre with
      | nil =>
        rw [List.nil_append] at h
        obtain ⟨_, htail⟩ := List.cons_eq_cons.1 h
        have hlen := subBlocksGo_length (idx + 1) (e2 :: rest2)
        rw [htail] at hlen
        simp at hlen
      | cons p pre2 =>
        rw [List.cons_append] at h
        obtain ⟨_, htail⟩ := List.cons_eq_cons.1 h
        exact ih (idx + 1) pre2 b htail

/-- C3: from a non-empty entry list, every consecutive block pair satisfies
`end = max(start + 500, next_start - 500)` (hence `end ≥ start + 500`), the
last block satisfies `end = start + 4000`, and block starts are exactly the
entry starts. -/
theorem subtitle_end_times (es : List (Nat × List Char)) (_hne : es ≠ []) :
    (∀ (pre post : List SubtitleBlock) (b bn : SubtitleBlock),
        toSubtitles es = pre ++ b :: bn :: post →
        b.endMs = max (b.startMs + 500) (bn.startMs - 500) ∧
          b.startMs + 500 ≤ b.endMs) ∧
    (∀ (pre : List SubtitleBlock) (b : SubtitleBlock),
        toSubtitles es = pre ++ [b] → b.endMs = b.startMs + 4000) ∧
    (toSubtitles es).map SubtitleBlock.startMs = es.map (fun e => (e.1 : Int)) := by
  refine ⟨fun pre post b bn h => subBlocksGo_adj es 1 pre post b bn h,
    fun pre b h => subBlocksGo_last es 1 pre b h,
    subBlocksGo_map_start 1 es⟩

/-- C3 witness: for the entry list `[(0, ""), (1000, "")]` the first block
ends at `max(500, 500)` and the last block ends 4000 after its start. -/
theorem subtitle_end_times_witness :
    ((⟨1, 0, max (0 + 500) (1000 - 500), []⟩ : SubtitleBlock).endMs =
      max ((⟨1, 0, max (0 + 500) (1000 - 500), []⟩ : SubtitleBlock).startMs + 500)
          ((⟨2, 1000, 1000 + 4000, []⟩ : SubtitleBlock).startMs - 500)) ∧
    ((⟨2, 1000, 1000 + 4000, []⟩ : SubtitleBlock).endMs =
      (⟨2, 1000, 1000 + 4000, []⟩ : SubtitleBlock).startMs + 4000) := by
  refine ⟨(subtitle_end_times [(0, []), (1000, [])] (by decide)).1 [] []
      ⟨1, 0, max (0 + 500) (1000 - 500), []⟩ ⟨2, 1000, 1000 + 4000, []⟩ rfl |>.1,
    (subtitle_end_times [(0, []), (1000, [])] (by decide)).2.1
      [⟨1, 0, max (0 + 500) (1000 - 500), []⟩] ⟨2, 1000, 1000 + 4000, []⟩ rfl⟩

/-! ### C10: inputs without any timestamp pass through as plain text -/

theorem findP1_eq_none (s : List Char)
    (h : ∀ i < s.length, matchP1At (s.drop i) = none) : findP1 s = none := by
  induction s with
  | nil => rfl
  | cons c rest ih =>
    have h0 : matchP1At (c :: rest) = none := by
      have := h 0 (by simp)
      simpa using this
    have hrest : findP1 rest = none := by
      refine ih (fun i hi => ?_)
      have := h (i + 1) (by simp; omega)
      simpa using this
    show (match matchP1At (c :: rest) with
      | some after =>
        some ([], (c :: rest).take ((c :: rest).length - after.length), after)
      | none =>
        match findP1 rest with
        | some (pre, m, post) => some (c :: pre, m, post)
        | none => none) = none
    rw [h0, hrest]

/-- C10: a non-empty input containing no match of the timestamp pattern at
any position is returned unchanged as the plain form, with no line-timed
form. -/
theorem no_timestamp_passthrough (s : List Char) (hne : s ≠ [])
    (hno : ∀ i < s.length, matchP1At (s.drop i) = none) :
    split_lyrics_formats (some s) = (some s, none) := by
  have h1 : hasLrc s = false := by
    unfold hasLrc
    rw [findP1_eq_none s hno]
    rfl
  have h2 : s.isEmpty = false := by
    cases s
    · exact absurd rfl hne
    · rfl
  simp [split_lyrics_formats, h1, h2]

/-- C10 witness: the input `"Hello"` passes through unchanged. -/
theorem no_timestamp_passthrough_witness :
    split_lyrics_formats (some (toL ("Hello"))) = (some (toL ("Hello")), none) :=
  no_timestamp_passthrough (toL ("Hello")) (by decide) (by decide)

/-! ### C9: the fractional capture is at most two digits -/

theorem digitsVal_two_lt {e1 e2 : Char} (h1 : e1.isDigit = true)
    (h2 : e2.isDigit = true) : digitsVal [e1, e2] < 100 := by
  obtain ⟨a1, b1⟩ := digit_bounds h1
  obtain ⟨a2, b2⟩ := digit_bounds h2
  simp only [digitsVal, List.foldl]
  omega

theorem digitsVal_one_lt {e1 : Char} (h1 : e1.isDigit = true) :
    digitsVal [e1] < 100 := by
  obtain ⟨a1, b1⟩ := digit_bounds h1
  simp only [digitsVal, List.foldl]
  omega

theorem tsFracTwo_ff {mm ss : Nat} {s : List Char} {t : Nat × Nat × Nat}
    {r : List Char} (h : tsFracTwo mm ss s = some (t, r)) : t.2.2 < 100 := by
  rcases s with _ | ⟨sep, s⟩; · simp [tsFracTwo] at h
  rcases s with _ | ⟨e1, s⟩; · simp [tsFracTwo] at h
  rcases s with _ | ⟨e2, s⟩; · simp [tsFracTwo] at h
  rcases s with _ | ⟨rb, rest⟩; · simp [tsFracTwo] at h
  have h' : (if (isSep sep && e1.isDigit && e2.isDigit && decide (rb = ']')) = true then
      some ((mm, ss, digitsVal [e1, e2]), rest) else none) = some (t, r) := h
  split_ifs at h' with hc
  simp only [Bool.and_eq_true] at hc
  obtain ⟨rfl, rfl⟩ := Prod.mk.inj (Option.some.inj h')
  exact digitsVal_two_lt hc.1.1.2 hc.1.2

theorem tsFracOne_ff {mm ss : Nat} {s : List Char} {t : Nat × Nat × Nat}
    {r : List Char} (h : tsFracOne mm ss s = some (t, r)) : t.2.2 < 100 := by
  rcases s with _ | ⟨sep, s⟩; · simp [tsFracOne] at h
  rcases s with _ | ⟨e1, s⟩; · simp [tsFracOne] at h
  rcases s with _ | ⟨rb, rest⟩; · simp [tsFracOne] at h
  have h' : (if (isSep sep && e1.isDigit && decide (rb = ']')) = true then
      some ((mm, ss, digitsVal [e1]), rest) else none) = some (t, r) := h
  split_ifs at h' with hc
  simp only [Bool.and_eq_true] at hc
  obtain ⟨rfl, rfl⟩ := Prod.mk.inj (Option.some.inj h')
  exact digitsVal_one_lt hc.1.2

theorem tsFracNone_ff {mm ss : Nat} {s : List Char} {t : Nat × Nat × Nat}
    {r : List Char} (h : tsFracNone mm ss s = some (t, r)) : t.2.2 < 100 := by
  rcases s with _ | ⟨rb, rest⟩; · simp [tsFracNone] at h
  have h' : (if rb = ']' then some ((mm, ss, 0), rest) else none) = some (t, r) := h
  split_ifs at h' with hc
  obtain ⟨rfl, rfl⟩ := Prod.mk.inj (Option.some.inj h')
  show (0 : Nat) < 100
  decide

theorem tsFrac_ff {mm ss : Nat} {s : List Char} {t : Nat × Nat × Nat}
    {r : List Char} (h : tsFrac mm ss s = some (t, r)) : t.2.2 < 100 := by
  unfold tsFrac at h
  cases h2 : tsFracTwo mm ss s with
  | some v =>
    rw [h2] at h
    obtain ⟨t2, r2⟩ := v
    obtain ⟨rfl, rfl⟩ := Prod.mk.inj (Option.some.inj h)
    exact tsFracTwo_ff h2
  | none =>
    rw [h2] at h
    cases h1 : tsFracOne mm ss s with
    | some v =>
      rw [h1] at h
      obtain ⟨t1, r1⟩ := v
      obtain ⟨rfl, rfl⟩ := Prod.mk.inj (Option.some.inj h)
      exact tsFracOne_ff h1
    | none =>
      rw [h1] at h
      exact tsFracNone_ff h

theorem tsAfterMM_ff {mm : Nat} {s : List Char} {t : Nat × Nat × Nat}
    {r : List Char} (h : tsAfterMM mm s = some (t, r)) : t.2.2 < 100 := by
  rcases s with _ | ⟨col, s⟩; · simp [tsAfterMM] at h
  rcases s with _ | ⟨e1, s⟩; · simp [tsAfterMM] at h
  rcases s with _ | ⟨e2, rest⟩; · simp [tsAfterMM] at h
  have h' : (if (decide (col = ':') && e1.isDigit && e2.isDigit) = true then
      tsFrac mm (digitsVal [e1, e2]) rest else none) = some (t, r) := h
  split_ifs at h' with hc
  exact tsFrac_ff h'

theorem matchTsAt_ff {s : List Char} {t : Nat × Nat × Nat} {r : List Char}
    (h : matchTsAt s = some (t, r)) : t.2.2 < 100 := by
  rcases s with _ | ⟨lb, s⟩; · simp [matchTsAt] at h
  rcases s with _ | ⟨d1, rest⟩; · simp [matchTsAt] at h
  rcases rest with _ | ⟨d2, rest2⟩
  · have h' : (if (decide (lb = '[') && d1.isDigit) = true then
        tsAfterMM (digitsVal [d1]) [] else none) = some (t, r) := h
    split_ifs at h' with hc
    exact absurd h' (by simp [tsAfterMM])
  · have h' : (if (decide (lb = '[') && d1.isDigit) = true then
        (if d2.isDigit = true then
          match tsAfterMM (digitsVal [d1, d2]) rest2 with
          | some r => some r
          | none => tsAfterMM (digitsVal [d1]) (d2 :: rest2)
        else tsAfterMM (digitsVal [d1]) (d2 :: rest2))
        else none) = some (t, r) := h
    split_ifs at h' with hc hd
    · cases h2 : tsAfterMM (digitsVal [d1, d2]) rest2 with
      | some v =>
        rw [h2] at h'
        obtain ⟨tv, rv⟩ := v
        obtain ⟨rfl, rfl⟩ := Prod.mk.inj (Option.some.inj h')
        exact tsAfterMM_ff h2
      | none =>
        rw [h2] at h'
        exact tsAfterMM_ff h'
    · exact tsAfterMM_ff h'

theorem findAllTsGo_ff {fuel : Nat} {s : List Char} {t : Nat × Nat × Nat}
    (h : t ∈ findAllTsGo fuel s) : t.2.2 < 100 := by
  induction fuel generalizing s with
  | zero => exact absurd h (List.not_mem_nil t)
  | succ fuel ih =>
    cases s with
    | nil => exact absurd h (List.not_mem_nil t)
    | cons c rest =>
      have hgo : findAllTsGo (fuel + 1) (c :: rest) =
          (match matchTsAt (c :: rest) with
            | some (t, after) => t :: findAllTsGo fuel after
            | none => findAllTsGo fuel rest) := rfl
      rw [hgo] at h
      cases hm : matchTsAt (c :: rest) with
      | some v =>
        obtain ⟨t0, after⟩ := v
        rw [hm] at h
        rcases List.mem_cons.1 h with rfl | h2
        · exact matchTsAt_ff hm
        · exact ih h2
      | none =>
        rw [hm] at h
        exact ih h

/-- C9: every fractional value parsed during entry extraction lies in
[0, 99] — so the `else 0` branch of the millisecond rule is unreachable —
and a bracket whose fractional part has three or more digits fails the
timestamp pattern entirely: the match attempt at the bracket returns
nothing instead of an entry with `ms_part = 0`. -/
theorem fractional_else_unreachable :
    (∀ (s : List Char) (t : Nat × Nat × Nat), t ∈ findAllTs s →
      t.2.2 < 100 ∧ msOf t.2.2 = (if t.2.2 < 10 then t.2.2 * 10 else t.2.2)) ∧
    (∀ (m1 s1 s2 sep f1 f2 f3 : Char) (mtail rest : List Char),
      m1.isDigit = true → s1.isDigit = true → s2.isDigit = true →
      isSep sep = true → f1.isDigit = true → f2.isDigit = true →
      f3.isDigit = true →
      (mtail = [] ∨ ∃ m2, m2.isDigit = true ∧ mtail = [m2]) →
      matchTsAt ('[' :: m1 :: (mtail ++ ':' :: s1 :: s2 :: sep :: f1 :: f2 :: f3 :: rest)) =
        none) := by
  constructor
  · intro s t ht
    have hlt : t.2.2 < 100 := findAllTsGo_ff ht
    refine ⟨hlt, ?_⟩
    unfold msOf
    rcases Nat.lt_or_ge t.2.2 10 with h | h
    · rw [if_pos h, if_pos h]
    · rw [if_neg (Nat.not_lt.2 h), if_neg (Nat.not_lt.2 h), if_pos hlt]
  · intro m1 s1 s2 sep f1 f2 f3 mtail rest hm1 hs1 hs2 hsep hf1 hf2 hf3 hmt
    have hsep2 : sep = '.' ∨ sep = ':' := by
      simpa [isSep] using hsep
    have hsepne : sep ≠ ']' := by
      rcases hsep2 with rfl | rfl <;> decide
    have hsepnd : sep.isDigit = false := by
      rcases hsep2 with rfl | rfl <;> decide
    obtain ⟨hs2c, hs2d, hs2rb, hs2lb⟩ := digit_ne_special hs2
    obtain ⟨hf1c, hf1d, hf1rb, hf1lb⟩ := digit_ne_special hf1
    obtain ⟨hf2c, hf2d, hf2rb, hf2lb⟩ := digit_ne_special hf2
    obtain ⟨hf3c, hf3d, hf3rb, hf3lb⟩ := digit_ne_special hf3
    have hfrac : tsFrac (digitsVal [m1, '0']) (digitsVal [s1, s2])
        (sep :: f1 :: f2 :: f3 :: rest) = none := by
      simp [tsFrac, tsFracTwo, tsFracOne, tsFracNone, hf3rb, hf2rb, hsepne]
    rcases hmt with rfl | ⟨m2, hm2, rfl⟩
    · simp only [List.nil_append]
      simp [matchTsAt, hm1, tsAfterMM, hs1, hs2,
        tsFrac, tsFracTwo, tsFracOne, tsFracNone, hf3rb, hf2rb, hsepne]
    · obtain ⟨hm2c, hm2d, hm2rb, hm2lb⟩ := digit_ne_special hm2
      simp only [List.cons_append, List.nil_append]
      simp [matchTsAt, hm1, hm2, tsAfterMM, hs1, hs2, hm2c,
        tsFrac, tsFracTwo, tsFracOne, tsFracNone, hf3rb, hf2rb, hsepne]

/-- C9 witness: the fractional 5 parsed from `"[0:00.5]x"` is below 100 and
keeps the non-zero millisecond branch, and the three-digit-fraction bracket
`"[00:01.123]"` yields no match. -/
theorem fractional_else_unreachable_witness :
    ((5 : Nat) < 100 ∧ msOf 5 = (if 5 < 10 then 5 * 10 else 5)) ∧
    matchTsAt ('[' :: '0' :: (['0'] ++ ':' :: '0' :: '1' :: '.' :: '1' :: '2' :: '3' :: [']'])) =
      none :=
  ⟨(fractional_else_unreachable.1 (toL ("[0:00.5]x")) (0, 0, 5) (by decide)),
   fractional_else_unreachable.2 '0' '0' '1' '.' '1' '2' '3' ['0'] [']']
     (by decide) (by decide) (by decide) (by decide) (by decide) (by decide)
     (by decide) (Or.inr ⟨'0', by decide, rfl⟩)⟩

/-! ### C6: the plain derivation strips only a leading bracket group -/

theorem takeWhile_append_not_all {α : Type} (p : α → Bool) {u : List α} {c0 : α}
    (hc : c0 ∈ u) (hp : p c0 = false) (v : List α) :
    (u ++ v).takeWhile p = u.takeWhile p ∧
      (u ++ v).dropWhile p = u.dropWhile p ++ v := by
  induction u with
  | nil => exact absurd hc (List.not_mem_nil c0)
  | cons a u ih =>
    by_cases hpa : p a = true
    · have hc' : c0 ∈ u := by
        rcases List.mem_cons.1 hc with rfl | h
        · rw [hpa] at hp; cases hp
        · exact h
      obtain ⟨h1, h2⟩ := ih hc'
      simp [List.takeWhile_cons, List.dropWhile_cons, hpa, h1, h2]
    · have hpa' : p a = false := by simpa using hpa
      simp [List.takeWhile_cons, List.dropWhile_cons, hpa']

theorem dropWhile_head_false {α : Type} {p : α → Bool} {l r : List α} {c : α}
    (h : l.dropWhile p = c :: r) : p c = false := by
  induction l with
  | nil => simp at h
  | cons a l ih =>
    rw [List.dropWhile_cons] at h
    by_cases hpa : p a = true
    · rw [if_pos hpa] at h
      exact ih h
    · rw [if_neg hpa] at h
      obtain ⟨rfl, -⟩ := List.cons_eq_cons.1 h
      simpa using hpa

theorem stripLeadTs_eq_nil {line : List Char}
    (hd : line.dropWhile pyIsSpace = []) : stripLeadTs line = line := by
  unfold stripLeadTs
  rw [hd]

theorem stripLeadTs_eq_cons {line : List Char} {lb : Char} {r2 : List Char}
    (hd : line.dropWhile pyIsSpace = lb :: r2) :
    stripLeadTs line =
      (if lb = '[' then
        if (r2.takeWhile (fun c => c ≠ ']')).isEmpty then line
        else
          match r2.dropWhile (fun c => c ≠ ']') with
          | rb :: r4 => if rb = ']' then r4.dropWhile pyIsSpace else line
          | [] => line
      else line) := by
  unfold stripLeadTs
  rw [hd]

theorem stripLeadTs_suffix (line : List Char) : stripLeadTs line <:+ line := by
  cases hd : line.dropWhile pyIsSpace with
  | nil =>
    rw [stripLeadTs_eq_nil hd]
  | cons lb r2 =>
    rw [stripLeadTs_eq_cons hd]
    by_cases hlb : lb = '['
    · rw [if_pos hlb]
      by_cases hin : (r2.takeWhile (fun c => c ≠ ']')).isEmpty = true
      · rw [if_pos hin]
      · rw [if_neg hin]
        cases hdr : r2.dropWhile (fun c => c ≠ ']') with
        | nil => exact List.suffix_rfl
        | cons rb r4 =>
          show (if rb = ']' then r4.dropWhile pyIsSpace else line) <:+ line
          by_cases hrb : rb = ']'
          · rw [if_pos hrb]
            have h1 : r4.dropWhile pyIsSpace <:+ r4 := List.dropWhile_suffix _
            have h2 : r4 <:+ rb :: r4 := List.suffix_cons rb r4
            have h3 : rb :: r4 <:+ r2 := hdr ▸ List.dropWhile_suffix _
            have h4 : r2 <:+ lb :: r2 := List.suffix_cons lb r2
            have h5 : lb :: r2 <:+ line := hd ▸ List.dropWhile_suffix _
            exact h1.trans (h2.trans (h3.trans (h4.trans h5)))
          · rw [if_neg hrb]
    · rw [if_neg hlb]

theorem stripLeadTs_keeps (u g v inner : List Char)
    (hg : g = '[' :: inner ++ [']']) (hns : ∃ c ∈ u, pyIsSpace c = false)
    (hcond : (u.dropWhile pyIsSpace).head? ≠ some '[' ∨ ']' ∈ u) :
    ∃ w, stripLeadTs (u ++ g ++ v) = w ++ g ++ v := by
  have hassoc : u ++ g ++ v = u ++ (g ++ v) := List.append_assoc u g v
  obtain ⟨c1, hc1u, hc1f⟩ := hns
  obtain ⟨c0, u1, hdu⟩ : ∃ c0 u1, u.dropWhile pyIsSpace = c0 :: u1 := by
    cases hdu : u.dropWhile pyIsSpace with
    | nil =>
      rw [List.dropWhile_eq_nil_iff] at hdu
      rw [hdu c1 hc1u] at hc1f
      cases hc1f
    | cons c0 u1 => exact ⟨c0, u1, rfl⟩
  have hdapp : (u ++ (g ++ v)).dropWhile pyIsSpace = c0 :: (u1 ++ (g ++ v)) := by
    rw [(takeWhile_append_not_all pyIsSpace hc1u hc1f (g ++ v)).2, hdu]
    rfl
  rw [hassoc]
  rw [stripLeadTs_eq_cons hdapp]
  by_cases hc0 : c0 = '['
  · rw [if_pos hc0]
    have hmem : ']' ∈ u := by
      rcases hcond with hl | hr
      · rw [hdu, hc0] at hl
        exact absurd rfl hl
      · exact hr
    have hmem1 : ']' ∈ u1 := by
      have hsplit := List.takeWhile_append_dropWhile pyIsSpace u
      rw [hdu] at hsplit
      rw [← hsplit] at hmem
      rcases List.mem_append.1 hmem with h | h
      · have := List.mem_takeWhile_imp h
        exact absurd this (by decide)
      · rcases List.mem_cons.1 h with h2 | h2
        · rw [hc0] at h2
          cases h2
        · exact h2
    obtain ⟨htk1, htk2⟩ :=
      takeWhile_append_not_all (fun c => decide (c ≠ ']')) hmem1 (by simp) (g ++ v)
    by_cases hin : ((u1 ++ (g ++ v)).takeWhile (fun c => c ≠ ']')).isEmpty = true
    · rw [if_pos hin]
      exact ⟨u, hassoc.symm⟩
    · rw [if_neg hin]
      obtain ⟨u2, hdw⟩ : ∃ u2, u1.dropWhile (fun c => c ≠ ']') = ']' :: u2 := by
        cases hdw : u1.dropWhile (fun c => c ≠ ']') with
        | nil =>
          rw [List.dropWhile_eq_nil_iff] at hdw
          have := hdw ']' hmem1
          simp at this
        | cons rb u2 =>
          have := dropWhile_head_false hdw
          simp at this
          exact ⟨u2, by rw [this]⟩
      have hscrut : (u1 ++ (g ++ v)).dropWhile (fun c => c ≠ ']') =
          ']' :: (u2 ++ (g ++ v)) := by
        rw [htk2, hdw]
        rfl
      rw [hscrut]
      show ∃ w, (if (']' : Char) = ']' then (u2 ++ (g ++ v)).dropWhile pyIsSpace
        else u ++ (g ++ v)) = w ++ g ++ v
      rw [if_pos rfl]
      by_cases hu2 : ∃ c ∈ u2, pyIsSpace c = false
      · obtain ⟨c2, hc2, hc2f⟩ := hu2
        refine ⟨u2.dropWhile pyIsSpace, ?_⟩
        rw [(takeWhile_append_not_all pyIsSpace hc2 hc2f (g ++ v)).2, List.append_assoc]
      · have hall : ∀ c ∈ u2, pyIsSpace c = true := by
          intro c hcmem
          rcases hpc : pyIsSpace c with _ | _
          · exact absurd ⟨c, hcmem, hpc⟩ hu2
          · rfl
        refine ⟨[], ?_⟩
        rw [List.dropWhile_append, List.isEmpty_iff.2 (List.dropWhile_eq_nil_iff.2 hall),
          if_pos rfl, hg]
        rw [List.cons_append, List.cons_append, List.dropWhile_cons, if_neg (by decide)]
        simp
  · rw [if_neg hc0]
    exact ⟨u, hassoc.symm⟩

/-- C6 counterexample: the line `"[x[y]z"` contains the bracket group
`"[y]"` away from the line's start, yet the plain derivation returns `"z"`,
which contains no bracket at all: the leading strip `^\s*\[[^\]]+\]\s*`
matched `"[x[y]"` and consumed the non-leading group with it. -/
theorem plain_strip_cex :
    toL ("[x[y]z") = toL ("[x") ++ ('[' :: 'y' :: [']']) ++ toL ("z") ∧
    lrc_to_plain (toL ("[x[y]z")) = toL ("z") ∧
    '[' ∉ lrc_to_plain (toL ("[x[y]z")) := by
  refine ⟨by decide, by decide, by decide⟩

/-- C6 amended: the plain derivation removes only a prefix of each line
(the result is a suffix of the line), and a non-leading bracket group is
kept verbatim provided it does not overlap the leading strip's span: when
something non-whitespace precedes it and either the line's first non-space
character is not `[` or a closing `]` already occurs before the group.  A
non-leading group overlapping the leading match (an inner `[` before the
line's first `]`) can be consumed with it. -/
theorem plain_strip_prefix_only :
    (∀ line : List Char, stripLeadTs line <:+ line) ∧
    (∀ u g v inner : List Char, g = '[' :: inner ++ [']'] →
      (∃ c ∈ u, pyIsSpace c = false) →
      ((u.dropWhile pyIsSpace).head? ≠ some '[' ∨ ']' ∈ u) →
      ∃ w, stripLeadTs (u ++ g ++ v) = w ++ g ++ v) :=
  ⟨stripLeadTs_suffix, fun u g v inner hg hns hcond =>
    stripLeadTs_keeps u g v inner hg hns hcond⟩

/-- C6 amended witness: in `" x[y]z"` the group `"[y]"` is preceded by the
non-space `x`, the first non-space character is not `[`, and the group
survives verbatim. -/
theorem plain_strip_prefix_only_witness :
    ∃ w, stripLeadTs (toL (" x") ++ ('[' :: ['y'] ++ [']']) ++ toL ("z")) =
      w ++ ('[' :: ['y'] ++ [']']) ++ toL ("z") :=
  plain_strip_prefix_only.2 (toL (" x")) ('[' :: ['y'] ++ [']']) (toL ("z")) ['y']
    rfl ⟨'x', by decide, by decide⟩ (Or.inl (by decide))

/-! ### C4 groundwork: character classes, digit rendering, strip and split -/

theorem space_cases {c : Char} (h : pyIsSpace c = true) :
    c = ' ' ∨ c = '\t' ∨ c = '\n' ∨ c = '\r' ∨
    c = Char.ofNat 11 ∨ c = Char.ofNat 12 ∨
    c = Char.ofNat 28 ∨ c = Char.ofNat 29 ∨ c = Char.ofNat 30 ∨ c = Char.ofNat 31 ∨
    c = Char.ofNat 133 ∨ c = Char.ofNat 160 ∨
    c = Char.ofNat 0x2028 ∨ c = Char.ofNat 0x2029 := by
  have h2 := h
  simp [pyIsSpace] at h2
  tauto

theorem space_facts {c : Char} (h : pyIsSpace c = true) :
    c ≠ '[' ∧ c ≠ ']' ∧ isSep c = false ∧ c.isDigit = false := by
  rcases space_cases h with rfl | rfl | rfl | rfl | rfl | rfl | rfl | rfl | rfl |
    rfl | rfl | rfl | rfl | rfl <;>
    exact ⟨by decide, by decide, by decide, by decide⟩

theorem digit_not_space {c : Char} (h : c.isDigit = true) : pyIsSpace c = false := by
  rcases hs : pyIsSpace c with _ | _
  · rfl
  · rw [(space_facts hs).2.2.2] at h
    cases h

theorem digit_not_sep {c : Char} (h : c.isDigit = true) : isSep c = false := by
  rcases hs : isSep c with _ | _
  · rfl
  · have : c = '.' ∨ c = ':' := by simpa [isSep] using hs
    rcases this with rfl | rfl <;> cases h

theorem dropWhile_append_all {α : Type} {p : α → Bool} {u : List α}
    (h : ∀ c ∈ u, p c = true) (v : List α) :
    (u ++ v).dropWhile p = v.dropWhile p := by
  rw [List.dropWhile_append, if_pos]
  rw [List.isEmpty_iff, List.dropWhile_eq_nil_iff]
  exact h

theorem dropWhile_cons_false {α : Type} {p : α → Bool} {c : α} (l : List α)
    (h : p c = false) : (c :: l).dropWhile p = c :: l := by
  rw [List.dropWhile_cons, if_neg]
  rw [h]
  exact Bool.false_ne_true

/-- Stripping a body that starts and ends with a non-space removes exactly
the surrounding whitespace. -/
theorem pyStrip_spaces {sp1 core sp2 : List Char}
    (h1 : ∀ c ∈ sp1, pyIsSpace c = true) (h2 : ∀ c ∈ sp2, pyIsSpace c = true)
    {c0 cn : Char} {core1 : List Char}
    (hc : core = c0 :: core1) (hc0 : pyIsSpace c0 = false)
    (hlast : core.getLast? = some cn) (hcn : pyIsSpace cn = false) :
    pyStrip (sp1 ++ core ++ sp2) = core := by
  unfold pyStrip
  rw [List.append_assoc, dropWhile_append_all h1 (core ++ sp2)]
  rw [hc, List.cons_append, dropWhile_cons_false _ hc0, ← List.cons_append, ← hc]
  rw [List.reverse_append, List.reverse_eq_iff]
  rw [dropWhile_append_all (fun c hm => h2 c (List.mem_reverse.1 hm)) core.reverse]
  obtain ⟨core2, hcore2⟩ : ∃ core2, core.reverse = cn :: core2 := by
    cases hrev : core.reverse with
    | nil =>
      rw [List.reverse_eq_nil_iff] at hrev
      rw [hrev] at hc
      cases hc
    | cons x rest =>
      refine ⟨rest, ?_⟩
      have : core.getLast? = some x := by
        rw [← List.head?_reverse, hrev]
        rfl
      rw [this] at hlast
      rw [Option.some.inj hlast] at *
  rw [hcore2, dropWhile_cons_false _ hcn]

theorem digitChar_facts : ∀ k, k < 10 →
    (Nat.digitChar k).isDigit = true ∧ (Nat.digitChar k).toNat = 48 + k := by
  decide

theorem natDigits_lt10 {n : Nat} (h : n < 10) :
    natDigits n = [Nat.digitChar n] := by
  rw [natDigits]
  rw [dif_pos h]

theorem natDigits_two {n : Nat} (h1 : 10 ≤ n) (h2 : n < 100) :
    natDigits n = [Nat.digitChar (n / 10), Nat.digitChar (n % 10)] := by
  rw [natDigits, dif_neg (by omega)]
  rw [natDigits_lt10 (by omega)]
  rfl

/-- For `n < 100` the field `{n:02d}` is two digit characters whose value
is `n`. -/
theorem pad2_eq {n : Nat} (h : n < 100) :
    ∃ a b : Char, padNat 2 n = [a, b] ∧ a.isDigit = true ∧ b.isDigit = true ∧
      digitsVal [a, b] = n := by
  rcases Nat.lt_or_ge n 10 with h10 | h10
  · refine ⟨'0', Nat.digitChar n, ?_, by decide, (digitChar_facts n h10).1, ?_⟩
    · rw [padNat, natDigits_lt10 h10]
      rfl
    · simp only [digitsVal, List.foldl]
      rw [(digitChar_facts n h10).2]
      have h0 : ('0' : Char).toNat = 48 := by decide
      omega
  · refine ⟨Nat.digitChar (n / 10), Nat.digitChar (n % 10), ?_,
      (digitChar_facts _ (by omega)).1, (digitChar_facts _ (by omega)).1, ?_⟩
    · rw [padNat, natDigits_two h10 h]
      rfl
    · simp only [digitsVal, List.foldl]
      rw [(digitChar_facts (n / 10) (by omega)).2, (digitChar_facts (n % 10) (by omega)).2]
      omega

theorem splitSepGo_sep_free {u : List Char} (h : ∀ c ∈ u, isSep c = false) :
    ∀ acc, splitSepGo acc u = [acc.reverse ++ u] := by
  induction u with
  | nil =>
    intro acc
    simp [splitSepGo]
  | cons c u ih =>
    intro acc
    rw [splitSepGo, if_neg (by rw [h c (List.mem_cons_self c u)]; exact Bool.false_ne_true)]
    rw [ih (fun d hd => h d (List.mem_cons_of_mem c hd)) (c :: acc)]
    simp

theorem splitSepGo_append_sep {u : List Char} (h : ∀ c ∈ u, isSep c = false)
    {s : Char} (hs : isSep s = true) (v : List Char) :
    ∀ acc, splitSepGo acc (u ++ s :: v) = (acc.reverse ++ u) :: splitSepGo [] v := by
  induction u with
  | nil =>
    intro acc
    rw [List.nil_append, splitSepGo, if_pos hs]
    simp
  | cons c u ih =>
    intro acc
    rw [List.cons_append, splitSepGo,
      if_neg (by rw [h c (List.mem_cons_self c u)]; exact Bool.false_ne_true)]
    rw [ih (fun d hd => h d (List.mem_cons_of_mem c hd)) (c :: acc)]
    simp

/-! ### C4 groundwork: the exact shape of a P1 match -/

theorem p1Close_eq_nil {s : List Char} (hd : s.dropWhile pyIsSpace = []) :
    p1Close s = none := by
  unfold p1Close
  rw [hd]

theorem p1Close_eq_cons {s : List Char} {c : Char} {rest : List Char}
    (hd : s.dropWhile pyIsSpace = c :: rest) :
    p1Close s = if c = ']' then some rest else none := by
  unfold p1Close
  rw [hd]

theorem p1Close_shape {s r : List Char} (h : p1Close s = some r) :
    ∃ sp, s = sp ++ ']' :: r ∧ ∀ c ∈ sp, pyIsSpace c = true := by
  cases hd : s.dropWhile pyIsSpace with
  | nil => rw [p1Close_eq_nil hd] at h; cases h
  | cons c rest =>
    rw [p1Close_eq_cons hd] at h
    split_ifs at h with hc
    refine ⟨s.takeWhile pyIsSpace, ?_, fun d hm => List.mem_takeWhile_imp hm⟩
    subst hc
    rw [Option.some.inj h] at hd
    conv_lhs => rw [← List.takeWhile_append_dropWhile pyIsSpace s]
    rw [hd]

theorem p1FracTwo_shape {s r : List Char} (h : p1FracTwo s = some r) :
    ∃ sep e1 e2 rest, s = sep :: e1 :: e2 :: rest ∧ isSep sep = true ∧
      e1.isDigit = true ∧ e2.isDigit = true ∧ p1Close rest = some r := by
  rcases s with _ | ⟨sep, _ | ⟨e1, _ | ⟨e2, rest⟩⟩⟩
  · simp [p1FracTwo] at h
  · simp [p1FracTwo] at h
  · simp [p1FracTwo] at h
  have h' : (if (isSep sep && e1.isDigit && e2.isDigit) = true then p1Close rest
      else none) = some r := h
  split_ifs at h' with hc
  simp only [Bool.and_eq_true] at hc
  exact ⟨sep, e1, e2, rest, rfl, hc.1.1, hc.1.2, hc.2, h'⟩

theorem p1FracOne_shape {s r : List Char} (h : p1FracOne s = some r) :
    ∃ sep e1 rest, s = sep :: e1 :: rest ∧ isSep sep = true ∧
      e1.isDigit = true ∧ p1Close rest = some r := by
  rcases s with _ | ⟨sep, _ | ⟨e1, rest⟩⟩
  · simp [p1FracOne] at h
  · simp [p1FracOne] at h
  have h' : (if (isSep sep && e1.isDigit) = true then p1Close rest
      else none) = some r := h
  split_ifs at h' with hc
  simp only [Bool.and_eq_true] at hc
  exact ⟨sep, e1, rest, rfl, hc.1, hc.2, h'⟩

theorem p1Frac_shape {s r : List Char} (h : p1Frac s = some r) :
    ∃ fr rest, s = fr ++ rest ∧ p1Close rest = some r ∧
      (fr = [] ∨ (∃ sep e1, isSep sep = true ∧ e1.isDigit = true ∧ fr = [sep, e1]) ∨
        (∃ sep e1 e2, isSep sep = true ∧ e1.isDigit = true ∧ e2.isDigit = true ∧
          fr = [sep, e1, e2])) := by
  unfold p1Frac at h
  cases h2 : p1FracTwo s with
  | some v =>
    rw [h2] at h
    obtain ⟨sep, e1, e2, rest, hs, ha, hb, hc, hcl⟩ := p1FracTwo_shape h2
    rw [Option.some.inj h] at hcl
    exact ⟨[sep, e1, e2], rest, by rw [hs]; rfl, hcl,
      Or.inr (Or.inr ⟨sep, e1, e2, ha, hb, hc, rfl⟩)⟩
  | none =>
    rw [h2] at h
    cases h1 : p1FracOne s with
    | some v =>
      rw [h1] at h
      obtain ⟨sep, e1, rest, hs, ha, hb, hcl⟩ := p1FracOne_shape h1
      rw [Option.some.inj h] at hcl
      exact ⟨[sep, e1], rest, by rw [hs]; rfl, hcl,
        Or.inr (Or.inl ⟨sep, e1, ha, hb, rfl⟩)⟩
    | none =>
      rw [h1] at h
      exact ⟨[], s, rfl, h, Or.inl rfl⟩

theorem p1AfterMM_shape {s r : List Char} (h : p1AfterMM s = some r) :
    ∃ e1 e2 rest, s = ':' :: e1 :: e2 :: rest ∧ e1.isDigit = true ∧
      e2.isDigit = true ∧ p1Frac rest = some r := by
  rcases s with _ | ⟨col, _ | ⟨e1, _ | ⟨e2, rest⟩⟩⟩
  · simp [p1AfterMM] at h
  · simp [p1AfterMM] at h
  · simp [p1AfterMM] at h
  have h' : (if (decide (col = ':') && e1.isDigit && e2.isDigit) = true then p1Frac rest
      else none) = some r := h
  split_ifs at h' with hc
  simp only [Bool.and_eq_true, decide_eq_true_eq] at hc
  exact ⟨e1, e2, rest, by rw [hc.1.1], hc.1.2, hc.2, h'⟩

theorem p1AfterLB_eq_nil {s : List Char} (hd : s.dropWhile pyIsSpace = []) :
    p1AfterLB s = none := by
  unfold p1AfterLB
  rw [hd]

theorem p1AfterLB_eq_one {s : List Char} {d1 : Char}
    (hd : s.dropWhile pyIsSpace = [d1]) :
    p1AfterLB s = if d1.isDigit then p1AfterMM [] else none := by
  unfold p1AfterLB
  rw [hd]

theorem p1AfterLB_eq_two {s : List Char} {d1 d2 : Char} {rest2 : List Char}
    (hd : s.dropWhile pyIsSpace = d1 :: d2 :: rest2) :
    p1AfterLB s =
      (if d1.isDigit then
        (if d2.isDigit then
          match p1AfterMM rest2 with
          | some r => some r
          | none => p1AfterMM (d2 :: rest2)
        else p1AfterMM (d2 :: rest2))
      else none) := by
  unfold p1AfterLB
  rw [hd]

theorem p1AfterLB_shape {s r : List Char} (h : p1AfterLB s = some r) :
    ∃ sp ds rest, s = sp ++ ds ++ rest ∧ (∀ c ∈ sp, pyIsSpace c = true) ∧
      (∃ d1, d1.isDigit = true ∧ (ds = [d1] ∨ ∃ d2, d2.isDigit = true ∧ ds = [d1, d2])) ∧
      p1AfterMM rest = some r := by
  have hsplit := List.takeWhile_append_dropWhile pyIsSpace s
  have hsp : ∀ c ∈ s.takeWhile pyIsSpace, pyIsSpace c = true :=
    fun d hm => List.mem_takeWhile_imp hm
  cases hd : s.dropWhile pyIsSpace with
  | nil => rw [p1AfterLB_eq_nil hd] at h; cases h
  | cons d1 rest1 =>
    cases rest1 with
    | nil =>
      rw [p1AfterLB_eq_one hd] at h
      split_ifs at h with hd1
      simp [p1AfterMM] at h
    | cons d2 rest2 =>
      rw [p1AfterLB_eq_two hd] at h
      split_ifs at h with hd1 hd2
      · cases h2 : p1AfterMM rest2 with
        | some v =>
          rw [h2] at h
          have h' : some v = some r := h
          refine ⟨s.takeWhile pyIsSpace, [d1, d2], rest2, ?_, hsp,
            ⟨d1, hd1, Or.inr ⟨d2, hd2, rfl⟩⟩, h2.trans h'⟩
          conv_lhs => rw [← hsplit]
          rw [hd, List.append_assoc]
          rfl
        | none =>
          rw [h2] at h
          have h' : p1AfterMM (d2 :: rest2) = some r := h
          refine ⟨s.takeWhile pyIsSpace, [d1], d2 :: rest2, ?_, hsp,
            ⟨d1, hd1, Or.inl rfl⟩, h'⟩
          conv_lhs => rw [← hsplit]
          rw [hd, List.append_assoc]
          rfl
      · refine ⟨s.takeWhile pyIsSpace, [d1], d2 :: rest2, ?_, hsp,
          ⟨d1, hd1, Or.inl rfl⟩, h⟩
        conv_lhs => rw [← hsplit]
        rw [hd, List.append_assoc]
        rfl

theorem matchP1At_lb {s r : List Char} (h : matchP1At s = some r) :
    ∃ tail, s = '[' :: tail ∧ p1AfterLB tail = some r := by
  rcases s with _ | ⟨c, rest⟩
  · simp [matchP1At] at h
  have h' : (if c = '[' then p1AfterLB rest else none) = some r := h
  split_ifs at h' with hc
  subst hc
  exact ⟨rest, rfl, h'⟩

/-- The full anatomy of a P1 match: `[`, whitespace, one or two minute
digits, `:`, two second digits, an optional separator-plus-one-or-two-digit
fraction, whitespace, `]`, and then the remainder. -/
theorem matchP1At_full_shape {s r : List Char} (h : matchP1At s = some r) :
    ∃ sp1 ds ss1 ss2 fr sp2,
      s = '[' :: (sp1 ++ (ds ++ (':' :: ss1 :: ss2 :: (fr ++ (sp2 ++ (']' :: r)))))) ∧
      (∀ c ∈ sp1, pyIsSpace c = true) ∧
      (∃ d1, d1.isDigit = true ∧ (ds = [d1] ∨ ∃ d2, d2.isDigit = true ∧ ds = [d1, d2])) ∧
      ss1.isDigit = true ∧ ss2.isDigit = true ∧
      (fr = [] ∨ (∃ sep e1, isSep sep = true ∧ e1.isDigit = true ∧ fr = [sep, e1]) ∨
        (∃ sep e1 e2, isSep sep = true ∧ e1.isDigit = true ∧ e2.isDigit = true ∧
          fr = [sep, e1, e2])) ∧
      (∀ c ∈ sp2, pyIsSpace c = true) := by
  obtain ⟨tail, rfl, h1⟩ := matchP1At_lb h
  obtain ⟨sp1, ds, rest, rfl, hsp1, hds, h2⟩ := p1AfterLB_shape h1
  obtain ⟨ss1, ss2, rest2, hr2, hss1, hss2, h3⟩ := p1AfterMM_shape h2
  obtain ⟨fr, rest3, hr3, h4, hfr⟩ := p1Frac_shape h3
  obtain ⟨sp2, hr4, hsp2⟩ := p1Close_shape h4
  refine ⟨sp1, ds, ss1, ss2, fr, sp2, ?_, hsp1, hds, hss1, hss2, hfr, hsp2⟩
  rw [hr2, hr3, hr4]
  simp [List.append_assoc]

/-! ### C4 groundwork: computing `repl` on a matched timestamp -/

theorem notBr_of_space {c : Char} (h : pyIsSpace c = true) :
    (!(decide (c = '[') || decide (c = ']'))) = true := by
  obtain ⟨h1, h2, -, -⟩ := space_facts h
  simp [h1, h2]

theorem notBr_of_digit {c : Char} (h : c.isDigit = true) :
    (!(decide (c = '[') || decide (c = ']'))) = true := by
  obtain ⟨-, -, h3, h4⟩ := digit_ne_special h
  simp [h3, h4]

theorem notBr_of_sep {c : Char} (h : isSep c = true) :
    (!(decide (c = '[') || decide (c = ']'))) = true := by
  have : c = '.' ∨ c = ':' := by simpa [isSep] using h
  rcases this with rfl | rfl <;> decide

theorem isDigitStr_of_all {l : List Char} (hne : l ≠ [])
    (h : ∀ c ∈ l, c.isDigit = true) : isDigitStr l = true := by
  cases l with
  | nil => exact absurd rfl hne
  | cons c rest =>
    simp only [isDigitStr, List.isEmpty_cons, Bool.not_false, Bool.true_and]
    exact List.all_eq_true.2 h

/-- Evaluating `repl` on the interior of any P1 match: the result is the
canonical `[MM:SS.FF]` with each field's parsed, clamped value. -/
theorem tsRepl_of_shape {sp1 ds fr sp2 : List Char} {ss1 ss2 : Char}
    (hsp1 : ∀ c ∈ sp1, pyIsSpace c = true)
    (hds : ∃ d1, d1.isDigit = true ∧ (ds = [d1] ∨ ∃ d2, d2.isDigit = true ∧ ds = [d1, d2]))
    (hss1 : ss1.isDigit = true) (hss2 : ss2.isDigit = true)
    (hfr : fr = [] ∨ (∃ sep e1, isSep sep = true ∧ e1.isDigit = true ∧ fr = [sep, e1]) ∨
      (∃ sep e1 e2, isSep sep = true ∧ e1.isDigit = true ∧ e2.isDigit = true ∧
        fr = [sep, e1, e2]))
    (hsp2 : ∀ c ∈ sp2, pyIsSpace c = true) :
    digitsVal ds < 100 ∧ digitsVal [ss1, ss2] < 100 ∧
    (if fr = [] then 0 else max 0 (min (digitsVal fr.tail) 99)) < 100 ∧
    tsRepl ('[' :: (sp1 ++ (ds ++ (':' :: ss1 :: ss2 :: (fr ++ (sp2 ++ [']'])))))) =
      canonTs (digitsVal ds) (digitsVal [ss1, ss2])
        (if fr = [] then 0 else max 0 (min (digitsVal fr.tail) 99)) := by
  obtain ⟨d1, hd1, hdscase⟩ := hds
  have hds_digit : ∀ c ∈ ds, c.isDigit = true := by
    rcases hdscase with rfl | ⟨d2, hd2, rfl⟩
    · intro c hc
      rw [List.mem_singleton.1 hc]
      exact hd1
    · intro c hc
      rcases List.mem_cons.1 hc with rfl | hc2
      · exact hd1
      · rw [List.mem_singleton.1 hc2]
        exact hd2
  obtain ⟨ds1, hds1⟩ : ∃ ds1, ds = d1 :: ds1 := by
    rcases hdscase with rfl | ⟨d2, hd2, rfl⟩
    · exact ⟨[], rfl⟩
    · exact ⟨[d2], rfl⟩
  have hmmlt : digitsVal ds < 100 := by
    rcases hdscase with rfl | ⟨d2, hd2, rfl⟩
    · exact digitsVal_one_lt hd1
    · exact digitsVal_two_lt hd1 hd2
  have hds_sepfree : ∀ c ∈ ds, isSep c = false :=
    fun c hc => digit_not_sep (hds_digit c hc)
  have hds_str : isDigitStr ds = true :=
    isDigitStr_of_all (by rw [hds1]; exact List.cons_ne_nil d1 ds1) hds_digit
  have f1 : sp1.filter (fun c => !(decide (c = '[') || decide (c = ']'))) = sp1 :=
    List.filter_eq_self.2 (fun c hc => notBr_of_space (hsp1 c hc))
  have f2 : ds.filter (fun c => !(decide (c = '[') || decide (c = ']'))) = ds :=
    List.filter_eq_self.2 (fun c hc => notBr_of_digit (hds_digit c hc))
  have f4 : sp2.filter (fun c => !(decide (c = '[') || decide (c = ']'))) = sp2 :=
    List.filter_eq_self.2 (fun c hc => notBr_of_space (hsp2 c hc))
  rcases hfr with rfl | ⟨sep, e1, hsep, he1, rfl⟩ | ⟨sep, e1, e2, hsep, he1, he2, rfl⟩
  · refine ⟨hmmlt, digitsVal_two_lt hss1 hss2, by simp, ?_⟩
    have hfil : ('[' :: (sp1 ++ (ds ++ (':' :: ss1 :: ss2 :: ([] ++ (sp2 ++ [']'])))))).filter
        (fun c => !(decide (c = '[') || decide (c = ']'))) =
        sp1 ++ (ds ++ (':' :: ss1 :: ss2 :: ([] : List Char))) ++ sp2 := by
      rw [List.filter_cons, if_neg (by decide), List.nil_append,
        List.filter_append, List.filter_append, f1, f2]
      rw [List.filter_cons, if_pos (by decide)]
      rw [List.filter_cons, if_pos (notBr_of_digit hss1)]
      rw [List.filter_cons, if_pos (notBr_of_digit hss2)]
      rw [List.filter_append, f4,
        show (List.filter (fun c => !(decide (c = '[') || decide (c = ']'))) [']']) = []
          from rfl]
      simp [List.append_assoc]
    have hlast : (ds ++ (':' :: ss1 :: ss2 :: ([] : List Char))).getLast? = some ss2 := by
      rw [List.getLast?_append]
      simp
    have hstrip := pyStrip_spaces hsp1 hsp2 (by rw [hds1]; rfl) (digit_not_space hd1)
      hlast (digit_not_space hss2)
    have hsplit2 : splitSep (ds ++ (':' :: ss1 :: ss2 :: ([] : List Char))) =
        [ds, [ss1, ss2]] := by
      unfold splitSep
      rw [splitSepGo_append_sep hds_sepfree (by decide) _ []]
      rw [splitSepGo_sep_free (by
        intro c hc
        rcases List.mem_cons.1 hc with rfl | hc2
        · exact digit_not_sep hss1
        · rw [List.mem_singleton.1 hc2]
          exact digit_not_sep hss2) []]
      simp
    have hss_str : isDigitStr [ss1, ss2] = true := by
      simp [isDigitStr, hss1, hss2]
    simp only [tsRepl]
    rw [hfil, hstrip, hsplit2]
    simp [hds_str, hss_str]
  · refine ⟨hmmlt, digitsVal_two_lt hss1 hss2, by simp, ?_⟩
    have hfil : ('[' :: (sp1 ++ (ds ++ (':' :: ss1 :: ss2 :: ([sep, e1] ++ (sp2 ++ [']'])))))).filter
        (fun c => !(decide (c = '[') || decide (c = ']'))) =
        sp1 ++ (ds ++ (':' :: ss1 :: ss2 :: [sep, e1])) ++ sp2 := by
      rw [List.filter_cons, if_neg (by decide), List.cons_append, List.cons_append,
        List.nil_append, List.filter_append, List.filter_append, f1, f2]
      rw [List.filter_cons, if_pos (by decide)]
      rw [List.filter_cons, if_pos (notBr_of_digit hss1)]
      rw [List.filter_cons, if_pos (notBr_of_digit hss2)]
      rw [List.filter_cons, if_pos (notBr_of_sep hsep)]
      rw [List.filter_cons, if_pos (notBr_of_digit he1)]
      rw [List.filter_append, f4,
        show (List.filter (fun c => !(decide (c = '[') || decide (c = ']'))) [']']) = []
          from rfl]
      simp [List.append_assoc]
    have hlast : (ds ++ (':' :: ss1 :: ss2 :: [sep, e1])).getLast? = some e1 := by
      rw [List.getLast?_append]
      simp
    have hstrip := pyStrip_spaces hsp1 hsp2 (by rw [hds1]; rfl) (digit_not_space hd1)
      hlast (digit_not_space he1)
    have hsplit2 : splitSep (ds ++ (':' :: ss1 :: ss2 :: [sep, e1])) =
        [ds, [ss1, ss2], [e1]] := by
      unfold splitSep
      rw [splitSepGo_append_sep hds_sepfree (by decide) _ []]
      rw [show (ss1 :: ss2 :: [sep, e1]) = [ss1, ss2] ++ sep :: [e1] from rfl]
      rw [splitSepGo_append_sep (by
        intro c hc
        rcases List.mem_cons.1 hc with rfl | hc2
        · exact digit_not_sep hss1
        · rw [List.mem_singleton.1 hc2]
          exact digit_not_sep hss2) hsep _ []]
      rw [splitSepGo_sep_free (by
        intro c hc
        rw [List.mem_singleton.1 hc]
        exact digit_not_sep he1) []]
      simp
    have hss_str : isDigitStr [ss1, ss2] = true := by
      simp [isDigitStr, hss1, hss2]
    have hfr_str : isDigitStr [e1] = true := by
      simp [isDigitStr, he1]
    simp only [tsRepl]
    rw [hfil, hstrip, hsplit2]
    simp [hds_str, hss_str, hfr_str]
  · refine ⟨hmmlt, digitsVal_two_lt hss1 hss2, by simp, ?_⟩
    have hfil : ('[' :: (sp1 ++ (ds ++ (':' :: ss1 :: ss2 ::
          ([sep, e1, e2] ++ (sp2 ++ [']'])))))).filter
        (fun c => !(decide (c = '[') || decide (c = ']'))) =
        sp1 ++ (ds ++ (':' :: ss1 :: ss2 :: [sep, e1, e2])) ++ sp2 := by
      rw [List.filter_cons, if_neg (by decide), List.cons_append, List.cons_append,
        List.cons_append, List.nil_append, List.filter_append, List.filter_append, f1, f2]
      rw [List.filter_cons, if_pos (by decide)]
      rw [List.filter_cons, if_pos (notBr_of_digit hss1)]
      rw [List.filter_cons, if_pos (notBr_of_digit hss2)]
      rw [List.filter_cons, if_pos (notBr_of_sep hsep)]
      rw [List.filter_cons, if_pos (notBr_of_digit he1)]
      rw [List.filter_cons, if_pos (notBr_of_digit he2)]
      rw [List.filter_append, f4,
        show (List.filter (fun c => !(decide (c = '[') || decide (c = ']'))) [']']) = []
          from rfl]
      simp [List.append_assoc]
    have hlast : (ds ++ (':' :: ss1 :: ss2 :: [sep, e1, e2])).getLast? = some e2 := by
      rw [List.getLast?_append]
      simp
    have hstrip := pyStrip_spaces hsp1 hsp2 (by rw [hds1]; rfl) (digit_not_space hd1)
      hlast (digit_not_space he2)
    have hsplit2 : splitSep (ds ++ (':' :: ss1 :: ss2 :: [sep, e1, e2])) =
        [ds, [ss1, ss2], [e1, e2]] := by
      unfold splitSep
      rw [splitSepGo_append_sep hds_sepfree (by decide) _ []]
      rw [show (ss1 :: ss2 :: [sep, e1, e2]) = [ss1, ss2] ++ sep :: [e1, e2] from rfl]
      rw [splitSepGo_append_sep (by
        intro c hc
        rcases List.mem_cons.1 hc with rfl | hc2
        · exact digit_not_sep hss1
        · rw [List.mem_singleton.1 hc2]
          exact digit_not_sep hss2) hsep _ []]
      rw [splitSepGo_sep_free (by
        intro c hc
        rcases List.mem_cons.1 hc with rfl | hc2
        · exact digit_not_sep he1
        · rw [List.mem_singleton.1 hc2]
          exact digit_not_sep he2) []]
      simp
    have hss_str : isDigitStr [ss1, ss2] = true := by
      simp [isDigitStr, hss1, hss2]
    have hfr_str : isDigitStr [e1, e2] = true := by
      simp [isDigitStr, he1, he2]
    simp only [tsRepl]
    rw [hfil, hstrip, hsplit2]
    simp [hds_str, hss_str, hfr_str]

theorem append_cancel_of_eq {m post C : List Char} (h : m ++ post = C ++ post) :
    m = C := by
  have hlen := congrArg List.length h
  simp only [List.length_append] at hlen
  exact (List.append_inj h (by omega)).1

/-- The matched text of a P1 match starts with `[` and `repl` rewrites it to
a canonical stamp with in-range fields. -/
theorem tsRepl_of_match {m post : List Char} (h : matchP1At (m ++ post) = some post) :
    ∃ mm ss ff, mm < 100 ∧ ss < 100 ∧ ff < 100 ∧ tsRepl m = canonTs mm ss ff ∧
      ∃ mt, m = '[' :: mt := by
  obtain ⟨sp1, ds, ss1, ss2, fr, sp2, hs, hsp1, hds, hss1, hss2, hfr, hsp2⟩ :=
    matchP1At_full_shape h
  have hC : m ++ post =
      ('[' :: (sp1 ++ (ds ++ (':' :: ss1 :: ss2 :: (fr ++ (sp2 ++ [']'])))))) ++ post := by
    rw [hs]
    simp [List.append_assoc]
  have hm := append_cancel_of_eq hC
  obtain ⟨b1, b2, b3, hrepl⟩ := tsRepl_of_shape hsp1 hds hss1 hss2 hfr hsp2
  exact ⟨_, _, _, b1, b2, b3, by rw [hm]; exact hrepl, _, hm⟩

theorem matchP1At_cons_lb (L : List Char) : matchP1At ('[' :: L) = p1AfterLB L := by
  simp [matchP1At]

/-- The canonical stamp `[MM:SS.FF]` matches P1 and consumes exactly itself. -/
theorem matchP1At_canon {mm ss ff : Nat} (hmm : mm < 100) (hss : ss < 100)
    (hff : ff < 100) (post : List Char) :
    matchP1At (canonTs mm ss ff ++ post) = some post := by
  obtain ⟨a1, a2, ha, ha1, ha2, -⟩ := pad2_eq hmm
  obtain ⟨b1, b2, hb, hb1, hb2, -⟩ := pad2_eq hss
  obtain ⟨c1, c2, hc, hc1, hc2, -⟩ := pad2_eq hff
  have hsh : canonTs mm ss ff ++ post =
      '[' :: a1 :: a2 :: ':' :: b1 :: b2 :: '.' :: c1 :: c2 :: ']' :: post := by
    unfold canonTs
    rw [ha, hb, hc]
    simp
  rw [hsh, matchP1At_cons_lb]
  have hd : (a1 :: a2 :: ':' :: b1 :: b2 :: '.' :: c1 :: c2 :: ']' :: post).dropWhile
      pyIsSpace = a1 :: a2 :: ':' :: b1 :: b2 :: '.' :: c1 :: c2 :: ']' :: post :=
    dropWhile_cons_false _ (digit_not_space ha1)
  rw [p1AfterLB_eq_two hd, if_pos ha1, if_pos ha2]
  have hmm2 : p1AfterMM (':' :: b1 :: b2 :: '.' :: c1 :: c2 :: ']' :: post) =
      p1Frac ('.' :: c1 :: c2 :: ']' :: post) := by
    simp [p1AfterMM, hb1, hb2]
  have hclose : p1Close (']' :: post) = some post := by
    rw [p1Close_eq_cons (dropWhile_cons_false _ (by decide))]
    rw [if_pos rfl]
  have hfr2 : p1Frac ('.' :: c1 :: c2 :: ']' :: post) = some post := by
    have h2 : p1FracTwo ('.' :: c1 :: c2 :: ']' :: post) = some post := by
      have h' : p1FracTwo ('.' :: c1 :: c2 :: ']' :: post) =
          (if (isSep '.' && c1.isDigit && c2.isDigit) = true then p1Close (']' :: post)
            else none) := rfl
      rw [h', if_pos (by simp [hc1, hc2]; decide), hclose]
    unfold p1Frac
    rw [h2]
  rw [hmm2, hfr2]

/-! ### C4 groundwork: characterizing the leftmost match -/

theorem matchP1At_consumed {s r : List Char} (h : matchP1At s = some r) :
    ∃ Ct, s = ('[' :: Ct) ++ r := by
  obtain ⟨sp1, ds, ss1, ss2, fr, sp2, hs, -, -, -, -, -, -⟩ := matchP1At_full_shape h
  refine ⟨sp1 ++ (ds ++ (':' :: ss1 :: ss2 :: (fr ++ (sp2 ++ [']'])))), ?_⟩
  rw [hs]
  simp [List.append_assoc]

theorem take_of_append {s C r : List Char} (h : s = C ++ r) :
    s.take (s.length - r.length) = C := by
  subst h
  have : (C ++ r).length - r.length = C.length := by
    simp [List.length_append]
  rw [this]
  exact List.take_left C r

theorem findP1_eq {s : List Char} {pre m post : List Char}
    (h : findP1 s = some (pre, m, post)) :
    s = pre ++ m ++ post ∧ matchP1At (m ++ post) = some post ∧
      ∀ i < pre.length, matchP1At (s.drop i) = none := by
  induction s generalizing pre with
  | nil => cases h
  | cons c rest ih =>
    have hdef : findP1 (c :: rest) =
        (match matchP1At (c :: rest) with
          | some after =>
            some ([], (c :: rest).take ((c :: rest).length - after.length), after)
          | none =>
            match findP1 rest with
            | some (pre, m, post) => some (c :: pre, m, post)
            | none => none) := rfl
    rw [hdef] at h
    cases hm : matchP1At (c :: rest) with
    | some after =>
      rw [hm] at h
      have h' : some (([] : List Char),
          (c :: rest).take ((c :: rest).length - after.length), after) =
          some (pre, m, post) := h
      obtain ⟨h1, h23⟩ := Prod.mk.inj (Option.some.inj h')
      obtain ⟨h2, h3⟩ := Prod.mk.inj h23
      subst h1
      subst h3
      obtain ⟨Ct, hCt⟩ := matchP1At_consumed hm
      have hmC : m = '[' :: Ct := by
        rw [← h2, take_of_append hCt]
      constructor
      · rw [List.nil_append, hmC, ← hCt]
      · constructor
        · rw [hmC, ← hCt]
          exact hm
        · intro i hi
          cases hi
    | none =>
      rw [hm] at h
      cases hf : findP1 rest with
      | some v =>
        obtain ⟨pre1, m1, post1⟩ := v
        rw [hf] at h
        have h' : some (c :: pre1, m1, post1) = some (pre, m, post) := h
        obtain ⟨h1, h23⟩ := Prod.mk.inj (Option.some.inj h')
        obtain ⟨h2, h3⟩ := Prod.mk.inj h23
        subst h2
        subst h3
        obtain ⟨ha, hb, hc⟩ := ih hf
        subst h1
        refine ⟨by rw [ha]; rfl, hb, ?_⟩
        intro i hi
        cases i with
        | zero => exact hm
        | succ j =>
          have : (c :: rest).drop (j + 1) = rest.drop j := rfl
          rw [this]
          exact hc j (by simp at hi; omega)
      | none =>
        rw [hf] at h
        cases h

theorem findP1_intro {pre m post : List Char}
    (hm : matchP1At (m ++ post) = some post)
    (hnone : ∀ i < pre.length, matchP1At ((pre ++ m ++ post).drop i) = none) :
    findP1 (pre ++ m ++ post) = some (pre, m, post) := by
  induction pre with
  | nil =>
    rw [List.nil_append]
    obtain ⟨Ct, hCt⟩ := matchP1At_consumed hm
    have hmC : m = '[' :: Ct := append_cancel_of_eq hCt
    subst hmC
    rw [List.cons_append] at hm ⊢
    have hdef : findP1 ('[' :: (Ct ++ post)) =
        (match matchP1At ('[' :: (Ct ++ post)) with
          | some after =>
            some ([], ('[' :: (Ct ++ post)).take
              (('[' :: (Ct ++ post)).length - after.length), after)
          | none =>
            match findP1 (Ct ++ post) with
            | some (pre, m, post) => some ('[' :: pre, m, post)
            | none => none) := rfl
    rw [hdef, hm]
    show some (([] : List Char),
      ('[' :: (Ct ++ post)).take (('[' :: (Ct ++ post)).length - post.length), post) =
      some ([], '[' :: Ct, post)
    rw [take_of_append (show '[' :: (Ct ++ post) = ('[' :: Ct) ++ post by
      rw [List.cons_append])]
  | cons p pre1 ih =>
    have hdef : findP1 ((p :: pre1) ++ m ++ post) =
        (match matchP1At (p :: (pre1 ++ m ++ post)) with
          | some after =>
            some ([], (p :: (pre1 ++ m ++ post)).take
              ((p :: (pre1 ++ m ++ post)).length - after.length), after)
          | none =>
            match findP1 (pre1 ++ m ++ post) with
            | some (pre, m, post) => some (p :: pre, m, post)
            | none => none) := rfl
    rw [hdef]
    have h0 : matchP1At (p :: (pre1 ++ m ++ post)) = none := by
      have := hnone 0 (by simp)
      simpa using this
    rw [h0]
    rw [ih (fun i hi => by
      have := hnone (i + 1) (by simp; omega)
      simpa using this)]

/-! ### C4 groundwork: a failed match attempt stays failed when the text
after an interior `[` changes

All P1 sub-matchers reject the character `[` in every position after the
opening bracket, so whether an attempt at `a ++ '[' :: b` fails does not
depend on `b`. -/

theorem dropWhile_space_agree (a : List Char) :
    ∃ a', (a' = [] ∨ ∃ c0 a2, a' = c0 :: a2 ∧ pyIsSpace c0 = false) ∧
      ∀ b : List Char, (a ++ '[' :: b).dropWhile pyIsSpace = a' ++ '[' :: b := by
  by_cases hall : ∀ c ∈ a, pyIsSpace c = true
  · refine ⟨[], Or.inl rfl, fun b => ?_⟩
    rw [dropWhile_append_all hall, dropWhile_cons_false _ (by decide)]
    rfl
  · have hex : ∃ c ∈ a, pyIsSpace c = false := by
      by_contra hco
      refine hall (fun c hc => ?_)
      rcases hv : pyIsSpace c with _ | _
      · exact absurd ⟨c, hc, hv⟩ hco
      · rfl
    obtain ⟨c, hc, hcf⟩ := hex
    refine ⟨a.dropWhile pyIsSpace, ?_, fun b => (takeWhile_append_not_all pyIsSpace hc hcf
      ('[' :: b)).2⟩
    cases hd : a.dropWhile pyIsSpace with
    | nil =>
      rw [List.dropWhile_eq_nil_iff] at hd
      rw [hd c hc] at hcf
      cases hcf
    | cons c0 a2 => exact Or.inr ⟨c0, a2, rfl, dropWhile_head_false hd⟩

theorem p1Close_agree (a b1 b2 : List Char) :
    (p1Close (a ++ '[' :: b1)).isNone = (p1Close (a ++ '[' :: b2)).isNone := by
  obtain ⟨a', ha', hdw⟩ := dropWhile_space_agree a
  rcases ha' with rfl | ⟨c0, a2, rfl, hc0⟩
  · rw [p1Close_eq_cons (hdw b1), p1Close_eq_cons (hdw b2), if_neg (by decide),
      if_neg (by decide)]
  · rw [p1Close_eq_cons (by rw [hdw b1]; rfl), p1Close_eq_cons (by rw [hdw b2]; rfl)]
    by_cases hc : c0 = ']'
    · rw [if_pos hc, if_pos hc]
      rfl
    · rw [if_neg hc, if_neg hc]

theorem p1FracTwo_lb_none (b : List Char) : p1FracTwo ('[' :: b) = none := by
  rcases b with _ | ⟨x, _ | ⟨y, r⟩⟩ <;> simp [p1FracTwo, isSep]

theorem p1FracTwo_lb1_none (x : Char) (b : List Char) :
    p1FracTwo (x :: '[' :: b) = none := by
  rcases b with _ | ⟨y, r⟩ <;> simp [p1FracTwo]

theorem p1FracTwo_lb2_none (x y : Char) (b : List Char) :
    p1FracTwo (x :: y :: '[' :: b) = none := by
  simp [p1FracTwo]

theorem p1FracTwo_agree (a b1 b2 : List Char) :
    (p1FracTwo (a ++ '[' :: b1)).isNone = (p1FracTwo (a ++ '[' :: b2)).isNone := by
  rcases a with _ | ⟨x, _ | ⟨y, _ | ⟨z, a3⟩⟩⟩
  · rw [List.nil_append, List.nil_append, p1FracTwo_lb_none, p1FracTwo_lb_none]
  · rw [List.cons_append, List.nil_append, List.cons_append, List.nil_append,
      p1FracTwo_lb1_none, p1FracTwo_lb1_none]
  · simp only [List.cons_append, List.nil_append]
    rw [p1FracTwo_lb2_none, p1FracTwo_lb2_none]
  · simp only [List.cons_append]
    show ((if (isSep x && y.isDigit && z.isDigit) = true then
        p1Close (a3 ++ '[' :: b1) else none)).isNone =
      ((if (isSep x && y.isDigit && z.isDigit) = true then
        p1Close (a3 ++ '[' :: b2) else none)).isNone
    by_cases hc : (isSep x && y.isDigit && z.isDigit) = true
    · rw [if_pos hc, if_pos hc]
      exact p1Close_agree a3 b1 b2
    · rw [if_neg hc, if_neg hc]

theorem p1FracOne_lb_none (b : List Char) : p1FracOne ('[' :: b) = none := by
  rcases b with _ | ⟨x, r⟩ <;> simp [p1FracOne, isSep]

theorem p1FracOne_lb1_none (x : Char) (b : List Char) :
    p1FracOne (x :: '[' :: b) = none := by
  simp [p1FracOne]

theorem p1FracOne_agree (a b1 b2 : List Char) :
    (p1FracOne (a ++ '[' :: b1)).isNone = (p1FracOne (a ++ '[' :: b2)).isNone := by
  rcases a with _ | ⟨x, _ | ⟨y, a2⟩⟩
  · rw [List.nil_append, List.nil_append, p1FracOne_lb_none, p1FracOne_lb_none]
  · rw [List.cons_append, List.nil_append, List.cons_append, List.nil_append,
      p1FracOne_lb1_none, p1FracOne_lb1_none]
  · simp only [List.cons_append]
    show ((if (isSep x && y.isDigit) = true then p1Close (a2 ++ '[' :: b1)
        else none)).isNone =
      ((if (isSep x && y.isDigit) = true then p1Close (a2 ++ '[' :: b2) else none)).isNone
    by_cases hc : (isSep x && y.isDigit) = true
    · rw [if_pos hc, if_pos hc]
      exact p1Close_agree a2 b1 b2
    · rw [if_neg hc, if_neg hc]

theorem p1Frac_agree (a b1 b2 : List Char) :
    (p1Frac (a ++ '[' :: b1)).isNone = (p1Frac (a ++ '[' :: b2)).isNone := by
  unfold p1Frac
  have h2 := p1FracTwo_agree a b1 b2
  have h1 := p1FracOne_agree a b1 b2
  have h0 := p1Close_agree a b1 b2
  cases ht1 : p1FracTwo (a ++ '[' :: b1) with
  | some v =>
    cases ht2 : p1FracTwo (a ++ '[' :: b2) with
    | some w => rfl
    | none => rw [ht1, ht2] at h2; cases h2
  | none =>
    cases ht2 : p1FracTwo (a ++ '[' :: b2) with
    | some w => rw [ht1, ht2] at h2; cases h2
    | none =>
      cases ho1 : p1FracOne (a ++ '[' :: b1) with
      | some v =>
        cases ho2 : p1FracOne (a ++ '[' :: b2) with
        | some w => rfl
        | none => rw [ho1, ho2] at h1; cases h1
      | none =>
        cases ho2 : p1FracOne (a ++ '[' :: b2) with
        | some w => rw [ho1, ho2] at h1; cases h1
        | none => exact h0

theorem p1AfterMM_lb_none (b : List Char) : p1AfterMM ('[' :: b) = none := by
  rcases b with _ | ⟨x, _ | ⟨y, r⟩⟩ <;> simp [p1AfterMM]

theorem p1AfterLB_of_lb {s b : List Char} (hd : s.dropWhile pyIsSpace = '[' :: b) :
    p1AfterLB s = none := by
  cases b with
  | nil => rw [p1AfterLB_eq_one hd, if_neg (by decide)]
  | cons d2 rest2 => rw [p1AfterLB_eq_two hd, if_neg (by decide)]

theorem p1AfterMM_lb1_none (x : Char) (b : List Char) :
    p1AfterMM (x :: '[' :: b) = none := by
  rcases b with _ | ⟨y, r⟩ <;> simp [p1AfterMM]

theorem p1AfterMM_lb2_none (x y : Char) (b : List Char) :
    p1AfterMM (x :: y :: '[' :: b) = none := by
  rcases b with _ | ⟨z, r⟩ <;> simp [p1AfterMM]

theorem p1AfterMM_agree (a b1 b2 : List Char) :
    (p1AfterMM (a ++ '[' :: b1)).isNone = (p1AfterMM (a ++ '[' :: b2)).isNone := by
  rcases a with _ | ⟨x, _ | ⟨y, _ | ⟨z, a3⟩⟩⟩
  · rw [List.nil_append, List.nil_append, p1AfterMM_lb_none, p1AfterMM_lb_none]
  · rw [List.cons_append, List.nil_append, List.cons_append, List.nil_append,
      p1AfterMM_lb1_none, p1AfterMM_lb1_none]
  · simp only [List.cons_append, List.nil_append]
    rw [p1AfterMM_lb2_none, p1AfterMM_lb2_none]
  · simp only [List.cons_append]
    show ((if (decide (x = ':') && y.isDigit && z.isDigit) = true then
        p1Frac (a3 ++ '[' :: b1) else none)).isNone =
      ((if (decide (x = ':') && y.isDigit && z.isDigit) = true then
        p1Frac (a3 ++ '[' :: b2) else none)).isNone
    by_cases hc : (decide (x = ':') && y.isDigit && z.isDigit) = true
    · rw [if_pos hc, if_pos hc]
      exact p1Frac_agree a3 b1 b2
    · rw [if_neg hc, if_neg hc]

theorem p1AfterLB_agree (a b1 b2 : List Char) :
    (p1AfterLB (a ++ '[' :: b1)).isNone = (p1AfterLB (a ++ '[' :: b2)).isNone := by
  obtain ⟨a', ha', hdw⟩ := dropWhile_space_agree a
  rcases ha' with rfl | ⟨d1, a2, rfl, -⟩
  · -- first non-space is the interior '[' itself: not a digit, both fail
    rw [p1AfterLB_of_lb (by rw [hdw b1]; rfl), p1AfterLB_of_lb (by rw [hdw b2]; rfl)]
  · rcases a2 with _ | ⟨d2, a3⟩
    · -- dropWhile gives d1 :: '[' :: b
      rw [p1AfterLB_eq_two (by rw [hdw b1]; rfl), p1AfterLB_eq_two (by rw [hdw b2]; rfl)]
      by_cases hd1 : d1.isDigit = true
      · rw [if_pos hd1, if_pos hd1, if_neg (by decide), if_neg (by decide),
          p1AfterMM_lb_none, p1AfterMM_lb_none]
      · rw [if_neg hd1, if_neg hd1]
    · -- dropWhile gives d1 :: d2 :: (a3 ++ '[' :: b)
      have hb1 : (a ++ '[' :: b1).dropWhile pyIsSpace = d1 :: d2 :: (a3 ++ '[' :: b1) := by
        rw [hdw b1]
        rfl
      have hb2 : (a ++ '[' :: b2).dropWhile pyIsSpace = d1 :: d2 :: (a3 ++ '[' :: b2) := by
        rw [hdw b2]
        rfl
      rw [p1AfterLB_eq_two hb1, p1AfterLB_eq_two hb2]
      by_cases hd1 : d1.isDigit = true
      · rw [if_pos hd1, if_pos hd1]
        by_cases hd2 : d2.isDigit = true
        · rw [if_pos hd2, if_pos hd2]
          have hmm := p1AfterMM_agree a3 b1 b2
          have hfall := p1AfterMM_agree (d1 :: d2 :: a3) b1 b2
          simp only [List.cons_append] at hfall
          cases hm1 : p1AfterMM (a3 ++ '[' :: b1) with
          | some v =>
            cases hm2 : p1AfterMM (a3 ++ '[' :: b2) with
            | some w => rfl
            | none => rw [hm1, hm2] at hmm; cases hmm
          | none =>
            cases hm2 : p1AfterMM (a3 ++ '[' :: b2) with
            | some w => rw [hm1, hm2] at hmm; cases hmm
            | none =>
              show (p1AfterMM (d2 :: (a3 ++ '[' :: b1))).isNone =
                (p1AfterMM (d2 :: (a3 ++ '[' :: b2))).isNone
              have := p1AfterMM_agree (d2 :: a3) b1 b2
              simpa using this
        · rw [if_neg hd2, if_neg hd2]
          have := p1AfterMM_agree (d2 :: a3) b1 b2
          simpa using this
      · rw [if_neg hd1, if_neg hd1]

theorem matchP1At_agree {a : List Char} (hne : a ≠ []) (b1 b2 : List Char) :
    (matchP1At (a ++ '[' :: b1)).isNone = (matchP1At (a ++ '[' :: b2)).isNone := by
  cases a with
  | nil => exact absurd rfl hne
  | cons x a1 =>
    simp only [List.cons_append]
    show ((if x = '[' then p1AfterLB (a1 ++ '[' :: b1) else none)).isNone =
      ((if x = '[' then p1AfterLB (a1 ++ '[' :: b2) else none)).isNone
    by_cases hx : x = '['
    · rw [if_pos hx, if_pos hx]
      exact p1AfterLB_agree a1 b1 b2
    · rw [if_neg hx, if_neg hx]

/-- The canonical stamp is a fixed point of `repl`. -/
theorem tsRepl_canon {mm ss ff : Nat} (hmm : mm < 100) (hss : ss < 100) (hff : ff < 100) :
    tsRepl (canonTs mm ss ff) = canonTs mm ss ff := by
  obtain ⟨a1, a2, ha, ha1, ha2, hva⟩ := pad2_eq hmm
  obtain ⟨b1, b2, hb, hb1, hb2, hvb⟩ := pad2_eq hss
  obtain ⟨c1, c2, hc, hc1, hc2, hvc⟩ := pad2_eq hff
  have hshape : canonTs mm ss ff =
      '[' :: (([] : List Char) ++ (padNat 2 mm ++ (':' :: b1 :: b2 ::
        (['.', c1, c2] ++ (([] : List Char) ++ [']']))))) := by
    unfold canonTs
    rw [hb, hc]
    simp
  obtain ⟨-, -, -, hrepl⟩ := tsRepl_of_shape (fun c hc => absurd hc (List.not_mem_nil c))
    ⟨a1, ha1, Or.inr ⟨a2, ha2, ha⟩⟩ hb1 hb2
    (Or.inr (Or.inr ⟨'.', c1, c2, by decide, hc1, hc2, rfl⟩))
    (fun c hc => absurd hc (List.not_mem_nil c))
  rw [hshape, hrepl]
  have h1 : digitsVal (padNat 2 mm) = mm := by
    rw [ha]
    exact hva
  have h2 : digitsVal [b1, b2] = ss := hvb
  have h3 : (if (['.', c1, c2] : List Char) = [] then 0
      else max 0 (min (digitsVal (['.', c1, c2] : List Char).tail) 99)) = ff := by
    rw [if_neg (by simp)]
    have : digitsVal [c1, c2] = ff := hvc
    simp only [List.tail_cons, this]
    omega
  rw [h1, h2, h3]
  exact hshape

/-! ### C4 groundwork: idempotence of the per-line rewrite -/

theorem normLine_eq_none {line : List Char} (h : findP1 line = none) :
    normLine line = line := by
  unfold normLine
  rw [h]

theorem normLine_eq_some {line pre m post : List Char}
    (h : findP1 line = some (pre, m, post)) :
    normLine line = pre ++ tsRepl m ++ post := by
  unfold normLine
  rw [h]

theorem canonTs_cons (mm ss ff : Nat) :
    canonTs mm ss ff =
      '[' :: (padNat 2 mm ++ (':' :: (padNat 2 ss ++ ('.' :: (padNat 2 ff ++ [']']))))) := by
  unfold canonTs
  simp

theorem normLine_idem (line : List Char) : normLine (normLine line) = normLine line := by
  cases hf : findP1 line with
  | none => rw [normLine_eq_none hf, normLine_eq_none hf]
  | some v =>
    obtain ⟨pre, m, post⟩ := v
    obtain ⟨hs, hmm, hpre⟩ := findP1_eq hf
    obtain ⟨mm, ss, ff, hm1, hm2, hm3, hrepl, mt, hmt⟩ := tsRepl_of_match hmm
    rw [normLine_eq_some hf]
    have hnew : findP1 (pre ++ tsRepl m ++ post) = some (pre, tsRepl m, post) := by
      apply findP1_intro
      · rw [hrepl]
        exact matchP1At_canon hm1 hm2 hm3 post
      · intro i hi
        have hdrop1 : (pre ++ tsRepl m ++ post).drop i = pre.drop i ++ (tsRepl m ++ post) := by
          rw [List.append_assoc, List.drop_append_of_le_length (by omega)]
        have hdrop2 : line.drop i = pre.drop i ++ (m ++ post) := by
          rw [hs, List.append_assoc, List.drop_append_of_le_length (by omega)]
        have hold : matchP1At (pre.drop i ++ (m ++ post)) = none := by
          rw [← hdrop2]
          exact hpre i hi
        have hne : pre.drop i ≠ [] := by
          rw [Ne, List.drop_eq_nil_iff]
          omega
        have hagree := matchP1At_agree hne (mt ++ post)
          ((padNat 2 mm ++ (':' :: (padNat 2 ss ++ ('.' :: (padNat 2 ff ++ [']']))))) ++ post)
        rw [hdrop1, hrepl, canonTs_cons]
        have hold2 : (matchP1At (pre.drop i ++ '[' :: (mt ++ post))).isNone = true := by
          rw [Option.isNone_iff_eq_none]
          rw [show pre.drop i ++ '[' :: (mt ++ post) = pre.drop i ++ (m ++ post) by
            rw [hmt]
            simp]
          exact hold
        rw [hagree] at hold2
        rw [Option.isNone_iff_eq_none] at hold2
        rw [show pre.drop i ++
            ('[' :: (padNat 2 mm ++ (':' :: (padNat 2 ss ++ ('.' :: (padNat 2 ff ++ [']'])))))
              ++ post) =
            pre.drop i ++ '[' ::
              ((padNat 2 mm ++ (':' :: (padNat 2 ss ++ ('.' :: (padNat 2 ff ++ [']'])))))
                ++ post) by simp]
        exact hold2
    rw [normLine_eq_some hnew, hrepl, tsRepl_canon hm1 hm2 hm3]

/-! ### C4: idempotence of the whole normalizer -/

theorem break_cases {c : Char} (h : isLineBreak c = true) :
    c = '\n' ∨ c = '\r' ∨ c = Char.ofNat 11 ∨ c = Char.ofNat 12 ∨
    c = Char.ofNat 28 ∨ c = Char.ofNat 29 ∨ c = Char.ofNat 30 ∨
    c = Char.ofNat 133 ∨ c = Char.ofNat 0x2028 ∨ c = Char.ofNat 0x2029 := by
  have h2 := h
  simp [isLineBreak] at h2
  tauto

theorem digit_not_break {c : Char} (h : c.isDigit = true) : isLineBreak c = false := by
  rcases hv : isLineBreak c with _ | _
  · rfl
  · rcases break_cases hv with rfl | rfl | rfl | rfl | rfl | rfl | rfl | rfl | rfl | rfl <;>
      cases h

theorem pySplitlinesGo_nil (acc : List Char) :
    pySplitlinesGo acc [] = if acc.isEmpty then [] else [acc.reverse] := rfl

theorem pySplitlinesGo_cr_nil (acc : List Char) :
    pySplitlinesGo acc ['\r'] = [acc.reverse] := rfl

theorem pySplitlinesGo_cr_cons (acc : List Char) (r1 : Char) (rest2 : List Char) :
    pySplitlinesGo acc ('\r' :: r1 :: rest2) =
      if r1 = '\n' then acc.reverse :: pySplitlinesGo [] rest2
      else acc.reverse :: pySplitlinesGo [] (r1 :: rest2) := rfl

theorem pySplitlinesGo_cons_brk (acc : List Char) {c : Char} (rest : List Char)
    (h1 : ¬ c = '\r') (h2 : isLineBreak c = true) :
    pySplitlinesGo acc (c :: rest) = acc.reverse :: pySplitlinesGo [] rest := by
  cases rest with
  | nil =>
    have e : pySplitlinesGo acc [c] =
        if c = '\r' then acc.reverse :: pySplitlinesGo [] []
        else if isLineBreak c = true then acc.reverse :: pySplitlinesGo [] []
        else pySplitlinesGo (c :: acc) [] := rfl
    rw [e, if_neg h1, if_pos h2]
  | cons r1 rest2 =>
    have e : pySplitlinesGo acc (c :: r1 :: rest2) =
        if c = '\r' then
          (if r1 = '\n' then acc.reverse :: pySplitlinesGo [] rest2
           else acc.reverse :: pySplitlinesGo [] (r1 :: rest2))
        else if isLineBreak c = true then acc.reverse :: pySplitlinesGo [] (r1 :: rest2)
        else pySplitlinesGo (c :: acc) (r1 :: rest2) := rfl
    rw [e, if_neg h1, if_pos h2]

theorem pySplitlinesGo_cons_plain (acc : List Char) {c : Char} (rest : List Char)
    (h : isLineBreak c = false) :
    pySplitlinesGo acc (c :: rest) = pySplitlinesGo (c :: acc) rest := by
  have h1 : ¬ c = '\r' := by
    intro hc
    rw [hc] at h
    exact absurd h (by decide)
  have h2 : ¬ isLineBreak c = true := by
    rw [h]
    exact Bool.false_ne_true
  cases rest with
  | nil =>
    have e : pySplitlinesGo acc [c] =
        if c = '\r' then acc.reverse :: pySplitlinesGo [] []
        else if isLineBreak c = true then acc.reverse :: pySplitlinesGo [] []
        else pySplitlinesGo (c :: acc) [] := rfl
    rw [e, if_neg h1, if_neg h2]
  | cons r1 rest2 =>
    have e : pySplitlinesGo acc (c :: r1 :: rest2) =
        if c = '\r' then
          (if r1 = '\n' then acc.reverse :: pySplitlinesGo [] rest2
           else acc.reverse :: pySplitlinesGo [] (r1 :: rest2))
        else if isLineBreak c = true then acc.reverse :: pySplitlinesGo [] (r1 :: rest2)
        else pySplitlinesGo (c :: acc) (r1 :: rest2) := rfl
    rw [e, if_neg h1, if_neg h2]

theorem pySplitlinesGo_no_break : ∀ (n : Nat) (s acc : List Char), s.length ≤ n →
    (∀ c ∈ acc, isLineBreak c = false) →
    ∀ l ∈ pySplitlinesGo acc s, ∀ c ∈ l, isLineBreak c = false := by
  intro n
  induction n with
  | zero =>
    intro s acc hle hacc l hl
    have hs : s = [] := List.length_eq_zero.1 (by omega)
    subst hs
    have hl' : l ∈ (if acc.isEmpty then ([] : List (List Char)) else [acc.reverse]) := hl
    by_cases he : acc.isEmpty = true
    · rw [if_pos he] at hl'
      exact absurd hl' (List.not_mem_nil l)
    · rw [if_neg he] at hl'
      rw [List.mem_singleton.1 hl']
      intro c hc
      exact hacc c (List.mem_reverse.1 hc)
  | succ n ih =>
    intro s acc hle hacc l hl
    cases s with
    | nil =>
      have hl' : l ∈ (if acc.isEmpty then ([] : List (List Char)) else [acc.reverse]) := hl
      by_cases he : acc.isEmpty = true
      · rw [if_pos he] at hl'
        exact absurd hl' (List.not_mem_nil l)
      · rw [if_neg he] at hl'
        rw [List.mem_singleton.1 hl']
        intro c hc
        exact hacc c (List.mem_reverse.1 hc)
    | cons c0 rest =>
      simp only [List.length_cons] at hle
      have haccrev : ∀ c ∈ acc.reverse, isLineBreak c = false :=
        fun c hc => hacc c (List.mem_reverse.1 hc)
      have hnilacc : ∀ c ∈ ([] : List Char), isLineBreak c = false :=
        fun c hc => absurd hc (List.not_mem_nil c)
      by_cases hc0 : c0 = '\r'
      · subst hc0
        cases rest with
        | nil =>
          have hl' : l ∈ acc.reverse :: pySplitlinesGo [] [] := hl
          rcases List.mem_cons.1 hl' with rfl | hl2
          · exact haccrev
          · exact ih [] [] (by simp) hnilacc l hl2
        | cons r1 rest2 =>
          by_cases hr1 : r1 = '\n'
          · subst hr1
            have hl' : l ∈ acc.reverse :: pySplitlinesGo [] rest2 := hl
            rcases List.mem_cons.1 hl' with rfl | hl2
            · exact haccrev
            · exact ih rest2 [] (by simp at hle ⊢; omega) hnilacc l hl2
          · have hl' : l ∈ (if r1 = '\n' then acc.reverse :: pySplitlinesGo [] rest2
                else acc.reverse :: pySplitlinesGo [] (r1 :: rest2)) := hl
            rw [if_neg hr1] at hl'
            rcases List.mem_cons.1 hl' with rfl | hl2
            · exact haccrev
            · exact ih (r1 :: rest2) [] (by simp at hle ⊢; omega) hnilacc l hl2
      · by_cases hbr : isLineBreak c0 = true
        · rw [pySplitlinesGo_cons_brk acc rest hc0 hbr] at hl
          rcases List.mem_cons.1 hl with rfl | hl2
          · exact haccrev
          · exact ih rest [] (by omega) hnilacc l hl2
        · have hbr' : isLineBreak c0 = false := by
            rcases hv : isLineBreak c0 with _ | _
            · rfl
            · exact absurd hv hbr
          rw [pySplitlinesGo_cons_plain acc rest hbr'] at hl
          refine ih rest (c0 :: acc) (by omega) ?_ l hl
          intro c hc
          rcases List.mem_cons.1 hc with rfl | hc2
          · exact hbr'
          · exact hacc c hc2

theorem pySplitlines_no_break {s l : List Char} (hl : l ∈ pySplitlines s) :
    ∀ c ∈ l, isLineBreak c = false :=
  pySplitlinesGo_no_break s.length s [] (le_refl _)
    (fun c hc => absurd hc (List.not_mem_nil c)) l hl

theorem pySplitlinesGo_append {l : List Char} (hl : ∀ c ∈ l, isLineBreak c = false)
    (T : List Char) : ∀ acc,
    pySplitlinesGo acc (l ++ '\n' :: T) = (acc.reverse ++ l) :: pySplitlinesGo [] T := by
  induction l with
  | nil =>
    intro acc
    rw [List.nil_append, pySplitlinesGo_cons_brk acc T (by decide) (by decide),
      List.append_nil]
  | cons x l ih =>
    intro acc
    have hx : isLineBreak x = false := hl x (List.mem_cons_self x l)
    have hl2 : ∀ c ∈ l, isLineBreak c = false :=
      fun c hc => hl c (List.mem_cons_of_mem x hc)
    rw [List.cons_append, pySplitlinesGo_cons_plain acc (l ++ '\n' :: T) hx,
      ih hl2 (x :: acc)]
    simp

theorem pySplitlinesGo_plain {l : List Char} (hl : ∀ c ∈ l, isLineBreak c = false) :
    ∀ acc, acc ≠ [] ∨ l ≠ [] → pySplitlinesGo acc l = [acc.reverse ++ l] := by
  induction l with
  | nil =>
    intro acc hne
    have hacc : acc ≠ [] := by
      rcases hne with h | h
      · exact h
      · exact absurd rfl h
    rw [pySplitlinesGo_nil, if_neg (by rw [List.isEmpty_iff]; simpa using hacc),
      List.append_nil]
  | cons x l ih =>
    intro acc _
    have hx : isLineBreak x = false := hl x (List.mem_cons_self x l)
    have hl2 : ∀ c ∈ l, isLineBreak c = false :=
      fun c hc => hl c (List.mem_cons_of_mem x hc)
    rw [pySplitlinesGo_cons_plain acc l hx,
      ih hl2 (x :: acc) (Or.inl (List.cons_ne_nil x acc))]
    simp

theorem splitlines_joinNL : ∀ {ls : List (List Char)},
    (∀ l ∈ ls, ∀ c ∈ l, isLineBreak c = false) → ls ≠ [] →
    ls.getLast? ≠ some ([] : List Char) → pySplitlines (joinNL ls) = ls := by
  intro ls
  induction ls with
  | nil =>
    intro _ hne _
    exact absurd rfl hne
  | cons l ls' ih =>
    intro hbf _ hlast
    cases ls' with
    | nil =>
      have hj : joinNL [l] = l := by
        simp [joinNL, List.intercalate]
      rw [hj]
      unfold pySplitlines
      have hlne : l ≠ [] := by
        intro he
        exact hlast (by rw [he]; rfl)
      rw [pySplitlinesGo_plain (hbf l (List.mem_cons_self l [])) [] (Or.inr hlne)]
      simp
    | cons l2 ls2 =>
      have hj : joinNL (l :: l2 :: ls2) = l ++ '\n' :: joinNL (l2 :: ls2) := by
        simp [joinNL, List.intercalate]
      rw [hj]
      unfold pySplitlines
      rw [pySplitlinesGo_append (hbf l (List.mem_cons_self l (l2 :: ls2))) _ []]
      have hrest : pySplitlinesGo [] (joinNL (l2 :: ls2)) = pySplitlines (joinNL (l2 :: ls2)) := rfl
      rw [hrest, ih (fun m hm => hbf m (List.mem_cons_of_mem l hm))
        (List.cons_ne_nil l2 ls2) (by rw [← List.getLast?_cons_cons]; exact hlast)]
      simp

theorem trimBlank_subset {ls : List (List Char)} {l : List Char}
    (h : l ∈ trimBlank ls) : l ∈ ls := by
  unfold trimBlank at h
  have h1 := List.mem_reverse.1 h
  have h2 := (List.dropWhile_suffix isBlank).subset h1
  have h3 := List.mem_reverse.1 h2
  exact (List.dropWhile_suffix isBlank).subset h3

theorem trimBlank_eq_self {ls : List (List Char)}
    (hhead : ∀ h t, ls = h :: t → isBlank h = false)
    (hlast : ∀ l0, ls.getLast? = some l0 → isBlank l0 = false) :
    trimBlank ls = ls := by
  cases ls with
  | nil => rfl
  | cons h t =>
    unfold trimBlank
    rw [dropWhile_cons_false _ (hhead h t rfl)]
    cases hrev : (h :: t).reverse with
    | nil =>
      rw [List.reverse_eq_nil_iff] at hrev
      cases hrev
    | cons l0 r =>
      have hl0 : isBlank l0 = false := by
        refine hlast l0 ?_
        rw [← List.head?_reverse, hrev]
        rfl
      rw [dropWhile_cons_false _ hl0, ← hrev, List.reverse_reverse]

theorem trimBlank_first_last {ls : List (List Char)} :
    (∀ h t, trimBlank ls = h :: t → isBlank h = false) ∧
    (∀ l0, (trimBlank ls).getLast? = some l0 → isBlank l0 = false) := by
  constructor
  · intro h t hht
    unfold trimBlank at hht
    have hR : ((ls.dropWhile isBlank).reverse.dropWhile isBlank).getLast? = some h := by
      rw [← List.head?_reverse, hht]
      rfl
    obtain ⟨u, hu⟩ := List.dropWhile_suffix (l := (ls.dropWhile isBlank).reverse) isBlank
    have hRne : (ls.dropWhile isBlank).reverse.dropWhile isBlank ≠ [] := by
      intro he
      rw [he] at hht
      cases hht
    have hlastu : ((ls.dropWhile isBlank).reverse).getLast? = some h := by
      rw [← hu, List.getLast?_append]
      cases hg : ((ls.dropWhile isBlank).reverse.dropWhile isBlank).getLast? with
      | none =>
        rw [List.getLast?_eq_none_iff] at hg
        exact absurd hg hRne
      | some v =>
        rw [hg] at hR
        rw [hR]
        rfl
    rw [List.getLast?_reverse] at hlastu
    cases hD : ls.dropWhile isBlank with
    | nil =>
      rw [hD] at hlastu
      cases hlastu
    | cons d dt =>
      rw [hD] at hlastu
      have : d = h := by simpa using hlastu
      rw [← this]
      exact dropWhile_head_false hD
  · intro l0 hl0
    unfold trimBlank at hl0
    rw [List.getLast?_reverse] at hl0
    cases hR : (ls.dropWhile isBlank).reverse.dropWhile isBlank with
    | nil =>
      rw [hR] at hl0
      cases hl0
    | cons r rt =>
      rw [hR] at hl0
      have : r = l0 := by simpa using hl0
      rw [← this]
      exact dropWhile_head_false hR

theorem normLine_no_break {l : List Char} (h : ∀ c ∈ l, isLineBreak c = false) :
    ∀ c ∈ normLine l, isLineBreak c = false := by
  cases hf : findP1 l with
  | none =>
    rw [normLine_eq_none hf]
    exact h
  | some v =>
    obtain ⟨pre, m, post⟩ := v
    rw [normLine_eq_some hf]
    obtain ⟨hs, hmm, -⟩ := findP1_eq hf
    obtain ⟨mm, ss, ff, hm1, hm2, hm3, hrepl, -, -⟩ := tsRepl_of_match hmm
    intro c hc
    rcases List.mem_append.1 hc with hc1 | hc2
    · rcases List.mem_append.1 hc1 with hc3 | hc4
      · exact h c (by rw [hs]; simp [hc3])
      · rw [hrepl] at hc4
        obtain ⟨a1, a2, ha, ha1, ha2, -⟩ := pad2_eq hm1
        obtain ⟨b1, b2, hb, hb1, hb2, -⟩ := pad2_eq hm2
        obtain ⟨c1, c2, hcq, hcq1, hcq2, -⟩ := pad2_eq hm3
        have hlist : canonTs mm ss ff =
            ['[', a1, a2, ':', b1, b2, '.', c1, c2, ']'] := by
          unfold canonTs
          rw [ha, hb, hcq]
          rfl
        rw [hlist] at hc4
        simp only [List.mem_cons, List.not_mem_nil, or_false] at hc4
        rcases hc4 with rfl | rfl | rfl | rfl | rfl | rfl | rfl | rfl | rfl | rfl
        · decide
        · exact digit_not_break ha1
        · exact digit_not_break ha2
        · decide
        · exact digit_not_break hb1
        · exact digit_not_break hb2
        · decide
        · exact digit_not_break hcq1
        · exact digit_not_break hcq2
        · decide
    · exact h c (by rw [hs]; simp [hc2])

theorem isBlank_nil : isBlank ([] : List Char) = true := rfl

/-- C4: the normalizer is idempotent on every input. -/
theorem normalize_idem (s : List Char) :
    normalize_lrc (normalize_lrc s) = normalize_lrc s := by
  unfold normalize_lrc
  cases hTe : trimBlank ((pySplitlines s).map normLine) with
  | nil => rfl
  | cons t ts =>
    rw [← hTe]
    have hTbf : ∀ l ∈ trimBlank ((pySplitlines s).map normLine),
        ∀ c ∈ l, isLineBreak c = false := by
      intro l hl
      obtain ⟨l0, hl0, hmap⟩ := List.mem_map.1 (trimBlank_subset hl)
      rw [← hmap]
      exact normLine_no_break (pySplitlines_no_break hl0)
    have hTlast : (trimBlank ((pySplitlines s).map normLine)).getLast? ≠
        some ([] : List Char) := by
      intro hcontra
      have := trimBlank_first_last.2 [] hcontra
      rw [isBlank_nil] at this
      cases this
    have hsplit : pySplitlines (joinNL (trimBlank ((pySplitlines s).map normLine))) =
        trimBlank ((pySplitlines s).map normLine) :=
      splitlines_joinNL hTbf (by rw [hTe]; exact List.cons_ne_nil t ts) hTlast
    rw [hsplit]
    have hmap : (trimBlank ((pySplitlines s).map normLine)).map normLine =
        trimBlank ((pySplitlines s).map normLine) := by
      have := List.map_congr_left (l := trimBlank ((pySplitlines s).map normLine))
        (f := normLine) (g := id) ?_
      · rw [this, List.map_id]
      · intro l hl
        obtain ⟨l0, -, hmap0⟩ := List.mem_map.1 (trimBlank_subset hl)
        rw [← hmap0, normLine_idem]
        rfl
    rw [hmap]
    rw [trimBlank_eq_self trimBlank_first_last.1 trimBlank_first_last.2]

end ZvukLyrics
